import Mathlib

/-!
# gobackup `config` package: configuration resolution

A shallow embedding of `src/config/config.go` (package `config`): the package
state `Exist` / `Models`, `Init`, `loadModel`, `loadDatabasesConfig`,
`loadStoragesConfig`, `GetModelByName` and `ModelConfig.GetDatabaseByName`,
together with the parts of the libraries they call (`viper`, `path`, `fmt`,
`time`, `logger`).

Conventions of the embedding

* A Go `map[string]T` is an association list. A key is bound to its first
  entry; `range` visits each key once, in the order the list gives. A list
  without repeated keys is a map together with one iteration order, so a
  statement for all lists is a statement for all maps and all orders.
* A `*viper.Viper` is an `Option Viper`; `none` is the nil pointer. Calling a
  method on nil is the Go run-time panic `nil pointer dereference`, the
  `Panic` result here.
* The clock is the sequence of readings `time.Now().UnixNano()` returns, one
  per call, in call order.
* `cast.ToStringMap` decodes a string as a JSON object. The decoder is a
  parameter (`Env.jsonObject` for `Init`), so every statement holds for the
  decoder of `encoding/json`.
-/

namespace Config

/-! ## Go library functions used by the package -/

/-- Decimal rendering of a signed integer, as `fmt.Sprintf("%d", n)` and
`strconv.Itoa` produce it. -/
def formatInt (n : Int) : List Char :=
  if n < 0 then '-' :: Nat.toDigits 10 n.natAbs else Nat.toDigits 10 n.toNat

/-- The pieces of `s` between occurrences of `sep`, as `strings.Split` with a
one-character separator; the result always has at least one piece. -/
def splitOn (sep : Char) : List Char → List (List Char)
  | [] => [[]]
  | c :: cs =>
    if c = sep then [] :: splitOn sep cs
    else
      match splitOn sep cs with
      | [] => [[c]]
      | w :: ws => (c :: w) :: ws

/-- The pieces joined with `sep` between them, as `strings.Join`. -/
def joinWith (sep : Char) : List (List Char) → List Char
  | [] => []
  | [w] => w
  | w :: ws => w ++ sep :: joinWith sep ws

/-- The path element `..`. -/
def dotdot : List Char := ['.', '.']

/-- One element of the scan of `path.Clean`. `out` holds the elements written
so far, last written first. An empty element and `.` are dropped; `..` removes
the last written element when that is a real element, is appended when the path
is not rooted and nothing can be removed, and is dropped at the root; any other
element is written. -/
def cleanStep (rooted : Bool) (out : List (List Char)) (c : List Char) : List (List Char) :=
  if c = [] then out
  else if c = ['.'] then out
  else if c = dotdot then
    match out with
    | top :: rest => if top ≠ dotdot then rest else if rooted then out else c :: out
    | [] => if rooted then out else c :: out
  else c :: out

/-- Go `path.Clean` on the characters of a path: the shortest equivalent path,
`.` for the empty result. -/
def cleanChars (p : List Char) : List Char :=
  if p = [] then ['.']
  else
    let rooted := p.head? == some '/'
    let out := (splitOn '/' p).foldl (cleanStep rooted) []
    if rooted then '/' :: joinWith '/' out.reverse
    else if out = [] then ['.']
    else joinWith '/' out.reverse

/-- Go `path.Clean`. -/
def Clean (p : String) : String := ⟨cleanChars p.data⟩

/-- Go `path.Join`: leading empty elements are ignored, the rest is joined with
slashes and cleaned; the result is empty when every element is empty. -/
def Join (elem : List String) : String :=
  match (elem.map String.data).dropWhile (fun e => e = []) with
  | [] => ""
  | rest => ⟨cleanChars (joinWith '/' rest)⟩

/-! ## The configuration document and `viper` -/

/-- A parsed YAML or JSON value as viper holds it. A floating-point scalar is
given by the text `strconv.FormatFloat(f, 'f', -1, 64)` renders for it, which
determines the number. -/
inductive Value where
  | null
  | str (s : String)
  | int (n : Int)
  | float (text : String)
  | bool (b : Bool)
  | list (items : List Value)
  | map (entries : List (String × Value))
  deriving Repr, Inhabited

/-- The keys of a Go map in iteration order, each key once. -/
def mapKeys {β : Type} (m : List (String × β)) : List String :=
  (m.map Prod.fst).dedup

/-- Go `m[key] = value`: the binding of an existing key is replaced in place, a
new key is added. -/
def mapSet {β : Type} : List (String × β) → String → β → List (String × β)
  | [], key, value => [(key, value)]
  | (k, v) :: rest, key, value =>
    if k = key then (key, value) :: rest else (k, v) :: mapSet rest key value

/-- Go `cast.ToString`: a string is itself, a number and a boolean are
rendered, anything else (nil, a list, a mapping) is the empty string. -/
def castToString : Value → String
  | .str s => s
  | .int n => ⟨formatInt n⟩
  | .float text => text
  | .bool b => if b then "true" else "false"
  | _ => ""

/-- Go `cast.ToStringMap`: a mapping is itself, a string is decoded as a JSON
object, anything else is the empty map. The decoder `json` is Go
`json.Unmarshal` of a string into a `map[string]interface{}`, with the empty
map for a string that is no JSON object; it is a parameter of the model. -/
def castToStringMap (json : String → List (String × Value)) : Value → List (String × Value)
  | .map m => m
  | .str s => json s
  | _ => []

/-- The state of a `viper.Viper` that this package touches: the parsed
configuration and the defaults registered with `SetDefault`. Overrides, flags,
environment bindings and the key/value store stay empty in this package. -/
structure Viper where
  config : List (String × Value)
  defaults : List (String × Value)
  deriving Repr, Inhabited

/-- The key path of a lookup: `strings.Split(key, ".")`. Viper lower-cases the
keys of a document when it is read and lower-cases the key of a lookup; every
key this package passes is a lower-case literal or a key enumerated from the
document, so that step is the identity and is left out. -/
def keyPath (key : String) : List String :=
  (splitOn '.' key.data).map String.mk

/-- The elements of a key path joined with the key delimiter. -/
def joinPath (path : List String) : String :=
  ⟨joinWith '.' (path.map String.data)⟩

/-- Viper `searchMap`: every path element is one map key. The result `null` is
Go nil. -/
def searchMap : List (String × Value) → List String → Value
  | source, [] => .map source
  | source, p :: ps =>
    match source.lookup p with
    | none => .null
    | some next =>
      match ps with
      | [] => next
      | _ :: _ =>
        match next with
        | .map m => searchMap m ps
        | _ => .null

/-- Viper `searchMapWithPathPrefixes`: a key of the source that is itself a
dotted prefix of the path is tried before shorter prefixes. The first argument
bounds the nesting depth; `path.length` is enough. -/
def searchMapWithPathPrefixes : Nat → List (String × Value) → List String → Value
  | _, source, [] => .map source
  | 0, _, _ :: _ => .null
  | fuel + 1, source, p :: ps =>
    let path := p :: ps
    let attempt (i : Nat) : Option Value :=
      match source.lookup (joinPath (path.take i)) with
      | none => none
      | some next =>
        if i = path.length then some next
        else
          match next with
          | .map m =>
            match searchMapWithPathPrefixes fuel m (path.drop i) with
            | .null => none
            | val => some val
          | _ => none
    match ((List.range path.length).reverse.map (· + 1)).findSome? attempt with
    | some val => val
    | none => .null

/-- Viper `isPathShadowedInDeepMap`: whether a proper prefix of the path is
bound to a value that is not a mapping. -/
def isPathShadowedInDeepMap (path : List String) (m : List (String × Value)) : Bool :=
  let rec loop : List Nat → Bool
    | [] => false
    | i :: is =>
      match searchMap m (path.take i) with
      | .null => false
      | .map _ => loop is
      | _ => true
  loop ((List.range (path.length - 1)).map (· + 1))

/-- Viper `find`, restricted to the two sources this package fills: the
configuration first, then the defaults. -/
def Viper.find (v : Viper) (key : String) : Value :=
  let path := keyPath key
  match searchMapWithPathPrefixes path.length v.config path with
  | .null =>
    if 1 < path.length && isPathShadowedInDeepMap path v.config then .null
    else searchMap v.defaults path
  | val => val

/-- Viper `Get`. -/
def Viper.Get (v : Viper) (key : String) : Value := v.find key

/-- Viper `GetString`. -/
def Viper.GetString (v : Viper) (key : String) : String := castToString (v.Get key)

/-- Viper `GetStringMap`, with the JSON decoder of `cast.ToStringMap`. -/
def Viper.GetStringMap (json : String → List (String × Value)) (v : Viper) (key : String) :
    List (String × Value) :=
  castToStringMap json (v.Get key)

/-- Viper `Sub`: a fresh instance over the mapping at `key`; nil when the key
is absent or its value is not a mapping. -/
def Viper.Sub (v : Viper) (key : String) : Option Viper :=
  match v.Get key with
  | .map m => some { config := m, defaults := [] }
  | _ => none

/-- Viper `SetDefault` for a key without a delimiter. -/
def Viper.SetDefault (v : Viper) (key : String) (value : Value) : Viper :=
  { v with defaults := mapSet v.defaults key value }

/-- The entries of a Go map as `range` visits them: each key once, with the
value bound to it. -/
def mapEntries {β : Type} (m : List (String × β)) : List (String × β) :=
  (mapKeys m).filterMap (fun k => (m.lookup k).map (Prod.mk k))

/-! ## The package `config` -/

/-- The run-time panic of a method call through a nil `*viper.Viper`. -/
inductive Panic where
  | nilPointerDereference
  deriving Repr, DecidableEq, Inhabited

/-- Go `SubConfig`. The field `Type` is written `Type_`, `Type` being reserved
in Lean. -/
structure SubConfig where
  Name : String
  Type_ : String
  Viper : Option Viper
  deriving Repr, Inhabited

/-- Go `ModelConfig`. -/
structure ModelConfig where
  Name : String
  TempPath : String
  DumpPath : String
  CompressWith : SubConfig
  EncryptWith : SubConfig
  Archive : Option Viper
  Databases : List (String × SubConfig)
  Storages : List (String × SubConfig)
  Viper : Option Viper
  deriving Repr, Inhabited

/-- Modelled from the spec: the `logger` package of this repository is not part
of the sources at hand. Section 6 names its three diagnostics: an error-level
message, a warning-level message, and a fatal-level message that terminates
the process. An entry records the level and the text. -/
inductive LogEntry where
  | error (msg : String)
  | warn (msg : String)
  | fatal (msg : String)
  deriving Repr, DecidableEq, Inhabited

/-- The text of the deprecation warning of `loadStoragesConfig`. -/
def deprecatedStoreWith : String :=
  "[Deprecated] \"store_with\" is deprecated now, please use \"storages\" which supports multiple storages."

/-- The package variables `Exist` and `Models`. -/
structure State where
  Exist : Bool
  Models : List ModelConfig
  deriving Repr, Inhabited

/-- The package variables when the process starts: Go zero values. -/
def State.initial : State := { Exist := false, Models := [] }

/-- Where `viper.ReadInConfig` looks: the file given with `SetConfigFile`, or
the name given with `SetConfigName` in the directories added with
`AddConfigPath`. -/
inductive Locator where
  | file (path : String)
  | search (name : String) (paths : List String)
  deriving Repr, DecidableEq, Inhabited

/-- What `Init` takes from outside the package: the result of
`viper.ReadInConfig` for a locator (the error text, or the file used and the
parsed document), `os.TempDir()`, the successive readings of
`time.Now().UnixNano()`, and the JSON decoder of `cast.ToStringMap`. -/
structure Env where
  readInConfig : Locator → Except String (String × List (String × Value))
  tempDir : String
  now : Nat → Int
  jsonObject : String → List (String × Value)

/-- Modelled from the spec: how a call of `Init` ends. `logger.Fatalf` belongs
to the `logger` package, which is not among the sources; section 6 calls its
message process-terminating, so a call ends by returning, by that termination,
or by a run-time panic. -/
inductive Outcome where
  | returned
  | fatal
  | panic (p : Panic)
  deriving Repr, DecidableEq, Inhabited

/-- The loop of `loadDatabasesConfig` (lines 110-117) over the keys still to
visit. -/
def loadDatabasesLoop (subViper : Option Viper) :
    List String → ModelConfig → Except Panic ModelConfig
  | [], model => .ok model
  | key :: rest, model =>
    match subViper with
    | none => .error .nilPointerDereference
    | some sv =>
      let dbViper := sv.Sub key
      match dbViper with
      | none => .error .nilPointerDereference
      | some dv =>
        loadDatabasesLoop subViper rest
          { model with
            Databases := mapSet model.Databases key
              { Name := key, Type_ := dv.GetString "type", Viper := dbViper } }

/-- Go `loadDatabasesConfig` (lines 107-118). -/
def loadDatabasesConfig (json : String → List (String × Value)) (model : ModelConfig) :
    Except Panic ModelConfig :=
  match model.Viper with
  | none => .error .nilPointerDereference
  | some mv =>
    let subViper := mv.Sub "databases"
    let model := { model with Databases := [] }
    loadDatabasesLoop subViper (mapKeys (mv.GetStringMap json "databases")) model

/-- The loop of `loadStoragesConfig` (lines 135-142) over the keys still to
visit. -/
def loadStoragesLoop (subViper : Option Viper) :
    List String → ModelConfig → Except Panic ModelConfig
  | [], model => .ok model
  | key :: rest, model =>
    match subViper with
    | none => .error .nilPointerDereference
    | some sv =>
      let storageViper := sv.Sub key
      match storageViper with
      | none => .error .nilPointerDereference
      | some stv =>
        loadStoragesLoop subViper rest
          { model with
            Storages := mapSet model.Storages key
              { Name := key, Type_ := stv.GetString "type", Viper := storageViper } }

/-- The first half of `loadStoragesConfig` (lines 122-131): the model with the
legacy `store_with` entry, and the warning logged for it. -/
def loadStoreWith (mv : Viper) (model : ModelConfig) : List LogEntry × ModelConfig :=
  let storeWith := mv.Sub "store_with"
  let model := { model with Storages := [] }
  match storeWith with
  | some _ =>
    ([.warn deprecatedStoreWith],
      { model with
        Storages := mapSet model.Storages "store_with"
          { Name := "", Type_ := mv.GetString "store_with.type", Viper := mv.Sub "store_with" } })
  | none => ([], model)

/-- Go `loadStoragesConfig` (lines 120-143): the lines logged and the model, or
the panic. -/
def loadStoragesConfig (json : String → List (String × Value)) (model : ModelConfig) :
    List LogEntry × Except Panic ModelConfig :=
  match model.Viper with
  | none => ([], .error .nilPointerDereference)
  | some mv =>
    let (log, model) := loadStoreWith mv model
    let subViper := mv.Sub "storages"
    let model := { model with Storages := [] }
    (log, loadStoragesLoop subViper (mapKeys (mv.GetStringMap json "storages")) model)

/-- Go `loadModel` (lines 83-105). `v` is the global viper instance and `now`
the reading `time.Now().UnixNano()` returns in this call. -/
def loadModel (json : String → List (String × Value)) (v : Viper) (now : Int) (key : String) :
    List LogEntry × Except Panic ModelConfig :=
  let tempPath := Join [v.GetString "workdir", ⟨formatInt now⟩]
  let dumpPath := Join [tempPath, key]
  let modelViper := v.Sub ("models." ++ key)
  match modelViper with
  | none => ([], .error .nilPointerDereference)
  | some mv =>
    let model : ModelConfig :=
      { Name := key
        TempPath := tempPath
        DumpPath := dumpPath
        Viper := modelViper
        CompressWith :=
          { Name := "", Type_ := mv.GetString "compress_with.type", Viper := mv.Sub "compress_with" }
        EncryptWith :=
          { Name := "", Type_ := mv.GetString "encrypt_with.type", Viper := mv.Sub "encrypt_with" }
        Archive := mv.Sub "archive"
        Databases := []
        Storages := [] }
    match loadDatabasesConfig json model with
    | .error p => ([], .error p)
    | .ok model => loadStoragesConfig json model

/-- The result of a call of `Init`: how it ended, the package variables at that
point, and the lines handed to the logger. -/
structure InitResult where
  outcome : Outcome
  state : State
  log : List LogEntry

/-- The loop of `Init` (lines 74-76) over the keys still to visit; `tick`
counts the clock readings taken so far. -/
def initLoop (json : String → List (String × Value)) (v : Viper) (now : Nat → Int) :
    List String → Nat → List ModelConfig → List LogEntry →
      Option Panic × List ModelConfig × List LogEntry
  | [], _, models, log => (none, models, log)
  | key :: rest, tick, models, log =>
    match loadModel json v (now tick) key with
    | (lines, .error p) => (some p, models, log ++ lines)
    | (lines, .ok model) =>
      initLoop json v now rest (tick + 1) (models ++ [model]) (log ++ lines)

/-- The set-up of lines 48-62: the explicit file when one is given, else the
name `gobackup` in the three search directories. -/
def locatorOf (configFile : String) : Locator :=
  if configFile.length > 0 then Locator.file configFile
  else Locator.search "gobackup" [".", "$HOME/.gobackup", "/etc/gobackup/"]

/-- The global viper instance after lines 64-70: the document read, and the
default for `workdir`. -/
def viperOf (env : Env) (config : List (String × Value)) : Viper :=
  Viper.SetDefault { config := config, defaults := [] } "workdir"
    (.str (Join [env.tempDir, "gobackup"]))

/-- Go `Init` (lines 47-81), started in state `s`. -/
def Init (env : Env) (configFile : String) (s : State) : InitResult :=
  match env.readInConfig (locatorOf configFile) with
  | .error err =>
    { outcome := .returned, state := s,
      log := [.error ("Load gobackup config faild: " ++ err)] }
  | .ok (fileUsed, config) =>
    let v := viperOf env config
    let s := { s with Exist := true }
    let s := { s with Models := [] }
    match initLoop env.jsonObject v env.now
        (mapKeys (v.GetStringMap env.jsonObject "models")) 0 s.Models [] with
    | (some p, models, log) =>
      { outcome := .panic p, state := { s with Models := models }, log := log }
    | (none, models, log) =>
      if models.length = 0 then
        { outcome := .fatal, state := { s with Models := models },
          log := log ++ [.fatal ("No model found in " ++ fileUsed)] }
      else
        { outcome := .returned, state := { s with Models := models }, log := log }

/-- Go `GetModelByName` (lines 146-154) over the package variable `Models`:
a copy of the first model with the name, or nil. -/
def GetModelByName : List ModelConfig → String → Option ModelConfig
  | [], _ => none
  | m :: rest, name => if m.Name = name then some m else GetModelByName rest name

/-- The loop of `GetDatabaseByName` over the entries still to visit. -/
def getDatabaseLoop : List (String × SubConfig) → String → Option SubConfig
  | [], _ => none
  | (_, m) :: rest, name => if m.Name = name then some m else getDatabaseLoop rest name

/-- Go `ModelConfig.GetDatabaseByName` (lines 157-165): a copy of the first
entry visited whose `Name` is the name, or nil. -/
def ModelConfig.GetDatabaseByName (model : ModelConfig) (name : String) : Option SubConfig :=
  getDatabaseLoop (mapEntries model.Databases) name

/-! ## Reference points for the statements -/

/-- The record for `key` when the value bound to `key` in its group is the
mapping `e`: the name is the key, the type is the string under `type` in `e`,
and the tree is `e`. -/
def subConfigOf (key : String) (e : List (String × Value)) : SubConfig :=
  { Name := key
    Type_ := castToString ((e.lookup "type").getD .null)
    Viper := some { config := e, defaults := [] } }

/-- The group of a tree under a top-level key: the mapping bound to the key,
empty when the key is absent or bound to something that is no mapping. -/
def groupOf (tree : List (String × Value)) (name : String) : List (String × Value) :=
  match (tree.lookup name).getD .null with
  | .map m => m
  | _ => []

/-- The entries `GetStringMap` enumerates under a top-level key: the group, or
for a string the JSON object decoded from it. -/
def stringMapOf (json : String → List (String × Value)) (tree : List (String × Value))
    (name : String) : List (String × Value) :=
  castToStringMap json ((tree.lookup name).getD .null)

/-- A path element that `path.Clean` writes as it is: not empty, without a
slash, and neither `.` nor `..`. -/
def plainElement (s : List Char) : Prop :=
  s ≠ [] ∧ '/' ∉ s ∧ s ≠ ['.'] ∧ s ≠ dotdot

instance (s : List Char) : Decidable (plainElement s) := by
  unfold plainElement; infer_instance

/-- The elements `path.Clean` has written for a non-empty path, last written
first. -/
def cleanStack (p : List Char) : List (List Char) :=
  (splitOn '/' p).foldl (cleanStep (p.head? == some '/')) []

/-- The shape of what `path.Clean` has written, last written first: every
element is non-empty, has no slash and is not `.`, and a `..` stands only in a
path that is not rooted, with nothing but `..` written before it. -/
def canonStack (rooted : Bool) : List (List Char) → Prop
  | [] => True
  | top :: rest =>
    top ≠ [] ∧ '/' ∉ top ∧ top ≠ ['.'] ∧
      (top = dotdot → rooted = false ∧ ∀ r ∈ rest, r = dotdot) ∧ canonStack rooted rest

/-- The length of the elements written, each counted with one separator. -/
def stackSize (out : List (List Char)) : Nat :=
  (out.map (fun c => c.length + 1)).sum

/-- The key is bound to a mapping in the group. -/
def boundToMapping (group : List (String × Value)) (key : String) : Bool :=
  match group.lookup key with
  | some (.map _) => true
  | _ => false

/-- Every key of the group is bound to a mapping. -/
def allMappings (group : List (String × Value)) : Bool :=
  (mapKeys group).all (boundToMapping group)

/-- The entries under a top-level key can be resolved: the key is bound to a
mapping whose entries are all mappings, or it is bound to no mapping and
`GetStringMap` enumerates no key for it. -/
def groupResolves (json : String → List (String × Value)) (tree : List (String × Value))
    (name : String) : Bool :=
  match (tree.lookup name).getD .null with
  | .map m => allMappings m
  | val => (mapKeys (castToStringMap json val)).isEmpty

/-- The model under `key` can be resolved: its sub-tree is a mapping, and its
`databases` and `storages` entries can be resolved. -/
def modelResolves (json : String → List (String × Value)) (v : Viper) (key : String) : Bool :=
  match v.Sub ("models." ++ key) with
  | none => false
  | some mv => groupResolves json mv.config "databases" && groupResolves json mv.config "storages"

/-- The temporary path line 85 computes from the clock reading `now`. -/
def tempPathOf (v : Viper) (now : Int) : String :=
  Join [v.GetString "workdir", ⟨formatInt now⟩]

/-! ## Concrete inputs -/

/-- The Go zero value of `ModelConfig`. -/
def zeroModel : ModelConfig :=
  { Name := "", TempPath := "", DumpPath := ""
    CompressWith := { Name := "", Type_ := "", Viper := none }
    EncryptWith := { Name := "", Type_ := "", Viper := none }
    Archive := none, Databases := [], Storages := [], Viper := none }

/-- A model whose tree is `tree` and whose other fields are zero. -/
def modelOver (tree : List (String × Value)) : ModelConfig :=
  { zeroModel with Viper := some { config := tree, defaults := [] } }

/-- The model tree `databases: {db1: {type: mysql}, db2: {type: postgres}}`. -/
def twoDatabases : List (String × Value) :=
  [("databases",
    .map [("db1", .map [("type", .str "mysql")]), ("db2", .map [("type", .str "postgres")])])]

/-- The model tree `store_with: {type: s3}`, without a `storages` block. -/
def onlyStoreWith : List (String × Value) :=
  [("store_with", .map [("type", .str "s3")])]

/-- The model tree `storages: {local: {type: local}}`. -/
def oneStorage : List (String × Value) :=
  [("storages", .map [("local", .map [("type", .str "local")])])]

/-- The tree `oneStorage` with the legacy block `store_with: {type: s3}` added. -/
def oneStorageAndStoreWith : List (String × Value) :=
  ("store_with", .map [("type", .str "s3")]) :: oneStorage

/-- The JSON text of an object with the one key `a`, bound to an empty
object. -/
def jsonModelA : String := "\x7b\"a\": \x7b\x7d\x7d"

/-- The JSON text of an object with the one key `x`, bound to the object with
`type` the string `mysql`. -/
def jsonDatabaseX : String := "\x7b\"x\": \x7b\"type\": \"mysql\"\x7d\x7d"

/-- The JSON decoder on the strings of the inputs below: the two JSON texts
are decoded, every other string there is no JSON object. -/
def jsonSample (s : String) : List (String × Value) :=
  if s = jsonModelA then [("a", .map [])]
  else if s = jsonDatabaseX then [("x", .map [("type", .str "mysql")])]
  else []

/-- An environment in which `viper.ReadInConfig` always finds `gobackup.yml`
holding `doc`, the system temporary directory is `/tmp`, and the clock gives
the readings `now`. -/
def envOf (doc : List (String × Value)) (now : Nat → Int) : Env :=
  { readInConfig := fun _ => .ok ("gobackup.yml", doc), tempDir := "/tmp", now := now
    jsonObject := jsonSample }

/-- An environment without a configuration file at any location. -/
def envNotFound : Env :=
  { readInConfig := fun _ => .error "Config File \"gobackup\" Not Found"
    tempDir := "/tmp", now := fun i => i, jsonObject := jsonSample }

/-- The model tree whose `databases` is bound to the JSON text
`jsonDatabaseX`. -/
def jsonDatabases : List (String × Value) := [("databases", .str jsonDatabaseX)]

/-- The model tree whose `storages` is bound to the JSON text
`jsonDatabaseX`. -/
def jsonStorages : List (String × Value) := [("storages", .str jsonDatabaseX)]

/-- The document whose `models` is bound to the JSON text `jsonModelA`. -/
def docJsonModels : List (String × Value) := [("models", .str jsonModelA)]

/-- The document `models: {a: {}, b: 5}`: the second model key is bound to a
scalar. -/
def docSecondScalar : List (String × Value) :=
  [("models", .map [("a", .map []), ("b", .int 5)])]

/-- The document `models: {a: {}, b: {}, c: {}}`. -/
def docThreeModels : List (String × Value) :=
  [("models", .map [("a", .map []), ("b", .map []), ("c", .map [])])]

/-- The clock that reads 7, 7 and then 8. -/
def clock778 (i : Nat) : Int := if i < 2 then 7 else 8

/-- The document `models: {}`. -/
def docNoModels : List (String × Value) := [("models", .map [])]

/-- The document `models: {a: 5}`: the value of the model key is no mapping. -/
def docScalarModel : List (String × Value) := [("models", .map [("a", .int 5)])]

/-- The document `models: {a: {}, b: {}}`. -/
def docTwoModels : List (String × Value) :=
  [("models", .map [("a", .map []), ("b", .map [])])]

/-- The document of `docTwoModels` with `workdir: ./backups`. -/
def docRelativeWorkdir : List (String × Value) :=
  ("workdir", .str "./backups") :: docTwoModels

/-- A model with the given name and temporary path, zero elsewhere. -/
def namedModel (name tempPath : String) : ModelConfig :=
  { zeroModel with Name := name, TempPath := tempPath }

/-! ## Theorems -/

theorem splitOn_ne_nil (sep : Char) (s : List Char) : splitOn sep s ≠ [] := by
  induction s with
  | nil => simp [splitOn]
  | cons c cs ih =>
    unfold splitOn
    split
    · simp
    · split <;> simp

theorem joinWith_splitOn (sep : Char) (s : List Char) : joinWith sep (splitOn sep s) = s := by
  induction s with
  | nil => simp [splitOn, joinWith]
  | cons c cs ih =>
    unfold splitOn
    split
    · next h =>
      subst h
      cases hs : splitOn c cs with
      | nil => exact absurd hs (splitOn_ne_nil _ _)
      | cons w ws => rw [hs] at ih; simp [joinWith, ih]
    · cases hs : splitOn sep cs with
      | nil => exact absurd hs (splitOn_ne_nil _ _)
      | cons w ws =>
        rw [hs] at ih
        cases ws with
        | nil => simp [joinWith] at ih ⊢; exact ih
        | cons w2 ws2 => simp [joinWith] at ih ⊢; exact ih

theorem keyPath_ne_nil (key : String) : keyPath key ≠ [] := by
  simp [keyPath, splitOn_ne_nil]

theorem joinPath_keyPath (key : String) : joinPath (keyPath key) = key := by
  simp only [joinPath, keyPath, List.map_map]
  have : (String.data ∘ String.mk) = id := by funext x; rfl
  rw [this, List.map_id, joinWith_splitOn]

theorem searchMap_nil (path : List String) (h : path ≠ []) : searchMap [] path = .null := by
  cases path with
  | nil => exact absurd rfl h
  | cons p ps => simp [searchMap]

theorem search_fast (fuel : Nat) (source : List (String × Value)) (path : List String)
    (next : Value) (hp : path ≠ [])
    (h : source.lookup (joinPath path) = some next) :
    searchMapWithPathPrefixes (fuel + 1) source path = next := by
  cases path with
  | nil => exact absurd rfl hp
  | cons p ps =>
    simp only [searchMapWithPathPrefixes, List.length_cons, List.range_succ, List.reverse_append,
      List.reverse_cons, List.reverse_nil, List.nil_append, List.singleton_append, List.map_cons,
      List.findSome?_cons]
    have : List.take (ps.length + 1) (p :: ps) = p :: ps := by
      simp
    rw [this, h]
    simp

theorem search_miss (fuel : Nat) (source : List (String × Value)) (p : String)
    (h : source.lookup p = none) :
    searchMapWithPathPrefixes (fuel + 1) source [p] = .null := by
  have hj : joinPath [p] = p := by simp [joinPath, joinWith]
  simp [searchMapWithPathPrefixes, List.range_succ, hj, h]

theorem searchMap_single (m : List (String × Value)) (p : String) :
    searchMap m [p] = (m.lookup p).getD .null := by
  cases h : m.lookup p <;> simp [searchMap, h]

theorem find_of_lookup (v : Viper) (key : String) (next : Value)
    (h : v.config.lookup key = some next) (hd : v.defaults = []) :
    v.Get key = next := by
  have hp := keyPath_ne_nil key
  obtain ⟨n, hn⟩ : ∃ n, (keyPath key).length = n + 1 := by
    cases hk : keyPath key with
    | nil => exact absurd hk hp
    | cons a as => exact ⟨as.length, rfl⟩
  have hs : searchMapWithPathPrefixes (keyPath key).length v.config (keyPath key) = next := by
    rw [hn]; exact search_fast n _ _ _ hp (by rw [joinPath_keyPath]; exact h)
  simp only [Viper.Get, Viper.find, hs, hd, searchMap_nil _ hp]
  cases next <;> simp

theorem Get_single (v : Viper) (key : String) (hk : keyPath key = [key]) :
    v.Get key =
      match v.config.lookup key with
      | some val => if val matches .null then (v.defaults.lookup key).getD .null else val
      | none => (v.defaults.lookup key).getD .null := by
  simp only [Viper.Get, Viper.find, hk, List.length_singleton]
  cases h : v.config.lookup key with
  | none => simp [search_miss 0 _ _ h, searchMap_single]
  | some next =>
    have hj : joinPath [key] = key := by simp [joinPath, joinWith]
    rw [search_fast 0 v.config [key] next (by simp) (by rw [hj]; exact h)]
    cases next <;> simp [searchMap_single]

theorem Get_single_sub (v : Viper) (key : String) (hk : keyPath key = [key])
    (hd : v.defaults = []) : v.Get key = (v.config.lookup key).getD .null := by
  rw [Get_single v key hk, hd]
  cases h : v.config.lookup key with
  | none => simp
  | some next => cases next <;> simp

theorem mapSet_fresh {β : Type} (m : List (String × β)) (k : String) (v : β)
    (h : k ∉ m.map Prod.fst) : mapSet m k v = m ++ [(k, v)] := by
  induction m with
  | nil => rfl
  | cons a rest ih =>
    obtain ⟨k', v'⟩ := a
    simp only [List.map_cons, List.mem_cons, not_or] at h
    have hne : ¬ k' = k := fun e => h.1 e.symm
    simp [mapSet, hne, ih h.2]

theorem Sub_of_lookup_map (group : List (String × Value)) (k : String)
    (e : List (String × Value)) (h : group.lookup k = some (.map e)) :
    Viper.Sub { config := group, defaults := [] } k = some { config := e, defaults := [] } := by
  have hg := find_of_lookup { config := group, defaults := [] } k _ h rfl
  simp [Viper.Sub, hg]

theorem Sub_of_lookup_other (group : List (String × Value)) (k : String) (val : Value)
    (h : group.lookup k = some val) (hv : ∀ e, val ≠ .map e) :
    Viper.Sub { config := group, defaults := [] } k = none := by
  have hg := find_of_lookup { config := group, defaults := [] } k _ h rfl
  cases val <;> simp_all [Viper.Sub]

theorem GetString_type (e : List (String × Value)) :
    Viper.GetString { config := e, defaults := [] } "type"
      = castToString ((e.lookup "type").getD .null) := by
  simp only [Viper.GetString]
  rw [Get_single_sub _ "type" (by rfl) rfl]

theorem loadDatabasesLoop_ok (group : List (String × Value)) (keys : List String)
    (model : ModelConfig) (hn : keys.Nodup)
    (hf : ∀ k ∈ keys, k ∉ model.Databases.map Prod.fst)
    (hm : ∀ k ∈ keys, ∃ e, group.lookup k = some (.map e)) :
    loadDatabasesLoop (some { config := group, defaults := [] }) keys model
      = .ok { model with
              Databases := model.Databases ++
                keys.map (fun k => (k, subConfigOf k (groupOf group k))) } := by
  induction keys generalizing model with
  | nil => simp [loadDatabasesLoop]
  | cons key rest ih =>
    obtain ⟨e, he⟩ := hm key (List.mem_cons_self _ _)
    rw [List.nodup_cons] at hn
    simp only [loadDatabasesLoop, Sub_of_lookup_map group key e he, GetString_type]
    rw [ih _ hn.2]
    · simp [mapSet_fresh _ _ _ (hf key (List.mem_cons_self _ _)), he, subConfigOf, groupOf]
    · intro k hk
      simp only [mapSet_fresh _ _ _ (hf key (List.mem_cons_self _ _)), List.map_append,
        List.mem_append, List.map_cons, List.map_nil, List.mem_singleton, not_or]
      exact ⟨hf k (List.mem_cons_of_mem _ hk), fun h => hn.1 (h ▸ hk)⟩
    · exact fun k hk => hm k (List.mem_cons_of_mem _ hk)

theorem loadDatabasesLoop_panic (group : List (String × Value)) (keys : List String)
    (model : ModelConfig) (hk : ∀ k ∈ keys, ∃ val, group.lookup k = some val)
    (hm : ∃ k ∈ keys, ¬ ∃ e, group.lookup k = some (.map e)) :
    loadDatabasesLoop (some { config := group, defaults := [] }) keys model
      = .error .nilPointerDereference := by
  induction keys generalizing model with
  | nil => simp at hm
  | cons key rest ih =>
    obtain ⟨val, hval⟩ := hk key (List.mem_cons_self _ _)
    by_cases hmap : ∃ e, val = .map e
    · obtain ⟨e, rfl⟩ := hmap
      simp only [loadDatabasesLoop, Sub_of_lookup_map group key e hval]
      apply ih _ (fun k h => hk k (List.mem_cons_of_mem _ h))
      obtain ⟨k, hkm, hkn⟩ := hm
      rcases List.mem_cons.1 hkm with rfl | h
      · exact absurd ⟨e, hval⟩ hkn
      · exact ⟨k, h, hkn⟩
    · simp only [loadDatabasesLoop,
        Sub_of_lookup_other group key val hval (fun e h => hmap ⟨e, h⟩)]

theorem loadStoragesLoop_ok (group : List (String × Value)) (keys : List String)
    (model : ModelConfig) (hn : keys.Nodup)
    (hf : ∀ k ∈ keys, k ∉ model.Storages.map Prod.fst)
    (hm : ∀ k ∈ keys, ∃ e, group.lookup k = some (.map e)) :
    loadStoragesLoop (some { config := group, defaults := [] }) keys model
      = .ok { model with
              Storages := model.Storages ++
                keys.map (fun k => (k, subConfigOf k (groupOf group k))) } := by
  induction keys generalizing model with
  | nil => simp [loadStoragesLoop]
  | cons key rest ih =>
    obtain ⟨e, he⟩ := hm key (List.mem_cons_self _ _)
    rw [List.nodup_cons] at hn
    simp only [loadStoragesLoop, Sub_of_lookup_map group key e he, GetString_type]
    rw [ih _ hn.2]
    · simp [mapSet_fresh _ _ _ (hf key (List.mem_cons_self _ _)), he, subConfigOf, groupOf]
    · intro k hk
      simp only [mapSet_fresh _ _ _ (hf key (List.mem_cons_self _ _)), List.map_append,
        List.mem_append, List.map_cons, List.map_nil, List.mem_singleton, not_or]
      exact ⟨hf k (List.mem_cons_of_mem _ hk), fun h => hn.1 (h ▸ hk)⟩
    · exact fun k hk => hm k (List.mem_cons_of_mem _ hk)

theorem loadStoragesLoop_panic (group : List (String × Value)) (keys : List String)
    (model : ModelConfig) (hk : ∀ k ∈ keys, ∃ val, group.lookup k = some val)
    (hm : ∃ k ∈ keys, ¬ ∃ e, group.lookup k = some (.map e)) :
    loadStoragesLoop (some { config := group, defaults := [] }) keys model
      = .error .nilPointerDereference := by
  induction keys generalizing model with
  | nil => simp at hm
  | cons key rest ih =>
    obtain ⟨val, hval⟩ := hk key (List.mem_cons_self _ _)
    by_cases hmap : ∃ e, val = .map e
    · obtain ⟨e, rfl⟩ := hmap
      simp only [loadStoragesLoop, Sub_of_lookup_map group key e hval]
      apply ih _ (fun k h => hk k (List.mem_cons_of_mem _ h))
      obtain ⟨k, hkm, hkn⟩ := hm
      rcases List.mem_cons.1 hkm with rfl | h
      · exact absurd ⟨e, hval⟩ hkn
      · exact ⟨k, h, hkn⟩
    · simp only [loadStoragesLoop,
        Sub_of_lookup_other group key val hval (fun e h => hmap ⟨e, h⟩)]

theorem lookup_of_mem_mapKeys {β : Type} (m : List (String × β)) (k : String)
    (h : k ∈ mapKeys m) : ∃ val, m.lookup k = some val := by
  simp only [mapKeys, List.mem_dedup, List.mem_map] at h
  obtain ⟨⟨k', v⟩, hmem, rfl⟩ := h
  induction m with
  | nil => simp at hmem
  | cons a rest ih =>
    obtain ⟨k2, v2⟩ := a
    by_cases hk : k' = k2
    · subst hk; exact ⟨v2, by simp [List.lookup]⟩
    · rcases List.mem_cons.1 hmem with h | h
      · exact absurd (congrArg Prod.fst h) hk
      · obtain ⟨val, hval⟩ := ih h
        refine ⟨val, ?_⟩
        simp only [List.lookup]
        have : (k' == k2) = false := by simpa using hk
        simp only [this]
        exact hval

theorem mem_mapKeys_of_lookup {β : Type} (m : List (String × β)) (k : String) (val : β)
    (h : m.lookup k = some val) : k ∈ mapKeys m := by
  simp only [mapKeys, List.mem_dedup, List.mem_map]
  induction m with
  | nil => simp at h
  | cons a rest ih =>
    obtain ⟨k2, v2⟩ := a
    by_cases hk : k = k2
    · subst hk; exact ⟨(k, v2), by simp, rfl⟩
    · have hb : (k == k2) = false := by simpa using hk
      simp only [List.lookup, hb] at h
      obtain ⟨x, hx, hx2⟩ := ih h
      exact ⟨x, List.mem_cons_of_mem _ hx, hx2⟩

theorem mapKeys_nodup {β : Type} (m : List (String × β)) : (mapKeys m).Nodup :=
  List.nodup_dedup _

theorem lookup_map_key {β : Type} (keys : List String) (f : String → β) (k : String)
    (h : k ∈ keys) : (keys.map (fun k => (k, f k))).lookup k = some (f k) := by
  induction keys with
  | nil => simp at h
  | cons a rest ih =>
    by_cases hk : k = a
    · subst hk; simp [List.lookup]
    · have hb : (k == a) = false := by simpa using hk
      simp only [List.map_cons, List.lookup, hb]
      exact ih ((List.mem_cons.1 h).resolve_left hk)

theorem lookup_map_key_none {β : Type} (keys : List String) (f : String → β) (k : String)
    (h : k ∉ keys) : (keys.map (fun k => (k, f k))).lookup k = none := by
  induction keys with
  | nil => simp
  | cons a rest ih =>
    simp only [List.mem_cons, not_or] at h
    have hb : (k == a) = false := by simpa using h.1
    simp only [List.map_cons, List.lookup, hb]
    exact ih h.2

theorem boundToMapping_iff (group : List (String × Value)) (k : String) :
    boundToMapping group k = true ↔ ∃ e, group.lookup k = some (.map e) := by
  unfold boundToMapping
  cases h : group.lookup k with
  | none => simp
  | some val => cases val <;> simp

theorem allMappings_iff (group : List (String × Value)) :
    allMappings group = true ↔ ∀ k ∈ mapKeys group, ∃ e, group.lookup k = some (.map e) := by
  simp only [allMappings, List.all_eq_true, boundToMapping_iff]

theorem loop_nil_sub_databases (keys : List String) (model : ModelConfig) :
    loadDatabasesLoop none keys model
      = if keys.isEmpty then .ok model else .error .nilPointerDereference := by
  cases keys <;> simp [loadDatabasesLoop]

theorem loop_nil_sub_storages (keys : List String) (model : ModelConfig) :
    loadStoragesLoop none keys model
      = if keys.isEmpty then .ok model else .error .nilPointerDereference := by
  cases keys <;> simp [loadStoragesLoop]

theorem groupOf_of_map (tree : List (String × Value)) (name : String)
    (m : List (String × Value)) (h : (tree.lookup name).getD .null = .map m) :
    groupOf tree name = m := by
  simp [groupOf, h]

theorem groupOf_of_not_map (tree : List (String × Value)) (name : String)
    (h : ¬ ∃ m, (tree.lookup name).getD .null = .map m) : groupOf tree name = [] := by
  unfold groupOf
  split
  · next m hm => exact absurd ⟨m, hm⟩ h
  · rfl

theorem groupResolves_of_map (json : String → List (String × Value))
    (tree : List (String × Value)) (name : String) (m : List (String × Value))
    (h : (tree.lookup name).getD .null = .map m) :
    groupResolves json tree name = allMappings m := by
  simp [groupResolves, h]

theorem groupResolves_of_not_map (json : String → List (String × Value))
    (tree : List (String × Value)) (name : String)
    (h : ¬ ∃ m, (tree.lookup name).getD .null = .map m) :
    groupResolves json tree name
      = (mapKeys (castToStringMap json ((tree.lookup name).getD .null))).isEmpty := by
  unfold groupResolves
  split
  · next m hm => exact absurd ⟨m, hm⟩ h
  · rfl

theorem Sub_single_of_not_map (tree : List (String × Value)) (name : String)
    (hk : keyPath name = [name])
    (h : ¬ ∃ m, (tree.lookup name).getD .null = .map m) :
    Viper.Sub { config := tree, defaults := [] } name = none := by
  have hget := Get_single_sub { config := tree, defaults := [] } name hk rfl
  unfold Viper.Sub
  rw [hget]
  split
  · next m hm => exact absurd ⟨m, hm⟩ h
  · rfl

theorem Sub_single_of_map (tree : List (String × Value)) (name : String)
    (hk : keyPath name = [name]) (m : List (String × Value))
    (h : (tree.lookup name).getD .null = .map m) :
    Viper.Sub { config := tree, defaults := [] } name = some { config := m, defaults := [] } := by
  have hget := Get_single_sub { config := tree, defaults := [] } name hk rfl
  unfold Viper.Sub
  rw [hget, h]

theorem GetStringMap_single (json : String → List (String × Value))
    (tree : List (String × Value)) (name : String) (hk : keyPath name = [name]) :
    Viper.GetStringMap json { config := tree, defaults := [] } name = stringMapOf json tree name := by
  simp only [Viper.GetStringMap, stringMapOf]
  rw [Get_single_sub { config := tree, defaults := [] } name hk rfl]

/-- The databases of a model tree, as the source resolves them. -/
theorem loadDatabasesConfig_eq (json : String → List (String × Value)) (model : ModelConfig)
    (tree : List (String × Value))
    (hv : model.Viper = some { config := tree, defaults := [] }) :
    loadDatabasesConfig json model =
      if groupResolves json tree "databases" = true then
        .ok { model with
              Databases := (mapKeys (groupOf tree "databases")).map
                (fun k => (k, subConfigOf k (groupOf (groupOf tree "databases") k))) }
      else .error .nilPointerDereference := by
  simp only [loadDatabasesConfig, hv, GetStringMap_single json tree "databases" (by rfl)]
  by_cases hmap : ∃ m, (tree.lookup "databases").getD .null = .map m
  · obtain ⟨m, hval⟩ := hmap
    rw [Sub_single_of_map tree "databases" (by rfl) m hval, groupOf_of_map _ _ _ hval,
      groupResolves_of_map json _ _ _ hval]
    simp only [stringMapOf, hval, castToStringMap]
    by_cases hall : allMappings m = true
    · rw [if_pos hall]
      have := loadDatabasesLoop_ok m (mapKeys m) { model with Databases := [] }
        (mapKeys_nodup m) (by simp) ((allMappings_iff m).1 hall)
      simpa [hv] using this
    · rw [if_neg hall]
      apply loadDatabasesLoop_panic m (mapKeys m) _ (fun k hk => lookup_of_mem_mapKeys m k hk)
      simpa [allMappings_iff] using hall
  · rw [Sub_single_of_not_map tree "databases" (by rfl) hmap, groupOf_of_not_map _ _ hmap,
      groupResolves_of_not_map json _ _ hmap, loop_nil_sub_databases]
    simp only [stringMapOf]
    split <;> simp [mapKeys, hv]

/-- The storages of a model tree, as the source resolves them. -/
theorem loadStoragesConfig_eq (json : String → List (String × Value)) (model : ModelConfig)
    (tree : List (String × Value))
    (hv : model.Viper = some { config := tree, defaults := [] }) :
    (loadStoragesConfig json model).2 =
      if groupResolves json tree "storages" = true then
        .ok { model with
              Storages := (mapKeys (groupOf tree "storages")).map
                (fun k => (k, subConfigOf k (groupOf (groupOf tree "storages") k))) }
      else .error .nilPointerDereference := by
  simp only [loadStoragesConfig, hv, GetStringMap_single json tree "storages" (by rfl)]
  have hsw : ∀ ms : ModelConfig,
      ({ (loadStoreWith { config := tree, defaults := [] } model).2 with Storages := ms.Storages }
        : ModelConfig) = { model with Storages := ms.Storages } := by
    intro ms
    unfold loadStoreWith
    cases Viper.Sub { config := tree, defaults := [] } "store_with" <;> rfl
  by_cases hmap : ∃ m, (tree.lookup "storages").getD .null = .map m
  · obtain ⟨m, hval⟩ := hmap
    rw [Sub_single_of_map tree "storages" (by rfl) m hval, groupOf_of_map _ _ _ hval,
      groupResolves_of_map json _ _ _ hval]
    simp only [stringMapOf, hval, castToStringMap]
    by_cases hall : allMappings m = true
    · rw [if_pos hall]
      have := loadStoragesLoop_ok m (mapKeys m)
        { (loadStoreWith { config := tree, defaults := [] } model).2 with Storages := [] }
        (mapKeys_nodup m) (by simp) ((allMappings_iff m).1 hall)
      rw [this]
      have h0 := hsw { model with Storages := [] }
      simp only at h0
      simp only [List.nil_append]
      unfold loadStoreWith
      cases Viper.Sub { config := tree, defaults := [] } "store_with" <;> simp [hv]
    · rw [if_neg hall]
      apply loadStoragesLoop_panic m (mapKeys m) _ (fun k hk => lookup_of_mem_mapKeys m k hk)
      simpa [allMappings_iff] using hall
  · rw [Sub_single_of_not_map tree "storages" (by rfl) hmap, groupOf_of_not_map _ _ hmap,
      groupResolves_of_not_map json _ _ hmap, loop_nil_sub_storages]
    simp only [stringMapOf]
    unfold loadStoreWith
    cases Viper.Sub { config := tree, defaults := [] } "store_with" <;>
      (split <;> simp [mapKeys, hv])

/-- C7: for a model tree whose `databases` key is bound to a mapping in which
every entry is a mapping, `loadDatabasesConfig` succeeds and the `Databases`
mapping has exactly the keys of the group, each once; the entry under a key `k`
bound to the mapping `e` has `Name = k`, `Type` the string under `type` in `e`,
and `Viper` the tree `e`. When the tree has no `databases` key the mapping is
empty. In general the function returns a mapping exactly when the entries can
be resolved (`groupResolves`), and panics otherwise. -/
theorem loadDatabasesConfig_resolves (json : String → List (String × Value))
    (model : ModelConfig) (tree : List (String × Value))
    (hv : model.Viper = some { config := tree, defaults := [] }) :
    (∀ m, tree.lookup "databases" = some (.map m) → allMappings m = true →
      ∃ model', loadDatabasesConfig json model = .ok model' ∧
        model'.Databases.map Prod.fst = mapKeys m ∧
        (model'.Databases.map Prod.fst).Nodup ∧
        ∀ k e, m.lookup k = some (.map e) →
          ∃ sc, model'.Databases.lookup k = some sc ∧ sc.Name = k ∧
            sc.Type_ = castToString ((e.lookup "type").getD .null) ∧
            sc.Viper = some { config := e, defaults := [] }) ∧
    (tree.lookup "databases" = none →
      loadDatabasesConfig json model = .ok { model with Databases := [] }) ∧
    ((∃ model', loadDatabasesConfig json model = .ok model') ↔
      groupResolves json tree "databases" = true) := by
  refine ⟨?_, ?_, ?_⟩
  · intro m hm hall
    have hval : (tree.lookup "databases").getD .null = .map m := by simp [hm]
    have hg := groupOf_of_map tree "databases" m hval
    have hr : groupResolves json tree "databases" = true := by
      rw [groupResolves_of_map json _ _ _ hval]; exact hall
    refine ⟨_, by rw [loadDatabasesConfig_eq json model tree hv, if_pos hr], ?_, ?_, ?_⟩
    · simp [List.map_map, Function.comp_def, hg]
    · simpa [List.map_map, Function.comp_def, hg] using mapKeys_nodup m
    · intro k e hk
      refine ⟨subConfigOf k e, ?_, rfl, rfl, rfl⟩
      have hmem := mem_mapKeys_of_lookup _ _ _ hk
      have := lookup_map_key (mapKeys m) (fun k => subConfigOf k (groupOf m k)) k hmem
      simp only [hg]
      rw [this]
      simp [groupOf, hk]
  · intro hnone
    have hnm : ¬ ∃ m, (tree.lookup "databases").getD .null = .map m := by simp [hnone]
    have hr : groupResolves json tree "databases" = true := by
      rw [groupResolves_of_not_map json _ _ hnm]; simp [hnone, castToStringMap, mapKeys]
    rw [loadDatabasesConfig_eq json model tree hv, if_pos hr, groupOf_of_not_map _ _ hnm]
    simp [mapKeys]
  · rw [loadDatabasesConfig_eq json model tree hv]
    split <;> simp_all

/-- C7, at the tree `databases: {db1: {type: mysql}, db2: {type: postgres}}`. -/
theorem loadDatabasesConfig_resolves_witness :
    (loadDatabasesConfig jsonSample (modelOver twoDatabases)).map
        (fun m => m.Databases.map (fun p => (p.1, p.2.Name, p.2.Type_)))
      = .ok [("db1", "db1", "mysql"), ("db2", "db2", "postgres")] ∧
    ∃ model', loadDatabasesConfig jsonSample (modelOver twoDatabases) = .ok model' ∧
      model'.Databases.map Prod.fst = mapKeys (groupOf twoDatabases "databases") ∧
      (model'.Databases.map Prod.fst).Nodup ∧
      ∀ k e, (groupOf twoDatabases "databases").lookup k = some (.map e) →
        ∃ sc, model'.Databases.lookup k = some sc ∧ sc.Name = k ∧
          sc.Type_ = castToString ((e.lookup "type").getD .null) ∧
          sc.Viper = some { config := e, defaults := [] } :=
  ⟨rfl,
    (loadDatabasesConfig_resolves jsonSample (modelOver twoDatabases) twoDatabases rfl).1
      (groupOf twoDatabases "databases") rfl (by decide)⟩

/-- A `databases` key bound to a string that holds a JSON object: the keys of
the object are visited, but the sub-tree is nil, and the loop panics. -/
theorem loadDatabasesConfig_json_string :
    mapKeys (stringMapOf jsonSample jsonDatabases "databases") = ["x"] ∧
    groupResolves jsonSample jsonDatabases "databases" = false ∧
    loadDatabasesConfig jsonSample (modelOver jsonDatabases) = .error .nilPointerDereference ∧
    (loadStoragesConfig jsonSample (modelOver jsonStorages)).2 = .error .nilPointerDereference := by
  refine ⟨by decide, by decide, rfl, rfl⟩

/-- C2: the `Storages` mapping `loadStoragesConfig` produces is resolved from
the `storages` group alone. Two model trees with the same `storages` entry give
the same result, whatever `store_with` holds; a mapping is produced exactly
when the entries can be resolved (`groupResolves`), and it then has the keys of
the group, each with `Name` the key, `Type` the string under `type` and `Viper`
the entry; without a `storages` key the mapping is empty, also when
`store_with` is present. -/
theorem loadStoragesConfig_storages_only (json : String → List (String × Value))
    (model : ModelConfig) (tree : List (String × Value))
    (hv : model.Viper = some { config := tree, defaults := [] }) :
    (∀ (model' : ModelConfig) (tree' : List (String × Value)),
        model'.Viper = some { config := tree', defaults := [] } →
        tree'.lookup "storages" = tree.lookup "storages" →
        (loadStoragesConfig json model').2.map (fun m => m.Storages)
          = (loadStoragesConfig json model).2.map (fun m => m.Storages)) ∧
    ((∃ model', (loadStoragesConfig json model).2 = .ok model') ↔
        groupResolves json tree "storages" = true) ∧
    (∀ model', (loadStoragesConfig json model).2 = .ok model' →
        model'.Storages.map Prod.fst = mapKeys (groupOf tree "storages") ∧
        model'.Storages.map Prod.fst = mapKeys (stringMapOf json tree "storages") ∧
        ∀ k e, (groupOf tree "storages").lookup k = some (.map e) →
          ∃ sc, model'.Storages.lookup k = some sc ∧ sc.Name = k ∧
            sc.Type_ = castToString ((e.lookup "type").getD .null) ∧
            sc.Viper = some { config := e, defaults := [] }) ∧
    (tree.lookup "storages" = none →
        (loadStoragesConfig json model).2 = .ok { model with Storages := [] }) := by
  refine ⟨?_, ?_, ?_, ?_⟩
  · intro model' tree' hv' hl
    have hg : groupOf tree' "storages" = groupOf tree "storages" := by simp [groupOf, hl]
    have hr : groupResolves json tree' "storages" = groupResolves json tree "storages" := by
      simp [groupResolves, hl]
    rw [loadStoragesConfig_eq json model tree hv, loadStoragesConfig_eq json model' tree' hv',
      hg, hr]
    split <;> simp [Except.map]
  · rw [loadStoragesConfig_eq json model tree hv]
    split <;> simp_all
  · intro model' h
    rw [loadStoragesConfig_eq json model tree hv] at h
    split at h
    · next hres =>
      injection h with h
      subst h
      refine ⟨by simp [List.map_map, Function.comp_def], ?_, ?_⟩
      · simp only [List.map_map, Function.comp_def, List.map_id']
        by_cases hmap : ∃ m, (tree.lookup "storages").getD .null = .map m
        · obtain ⟨m, hm⟩ := hmap
          simp [groupOf, stringMapOf, hm, castToStringMap]
        · rw [groupResolves_of_not_map json _ _ hmap] at hres
          rw [groupOf_of_not_map _ _ hmap]
          simp only [stringMapOf]
          simp only [List.isEmpty_iff] at hres
          rw [hres]
          simp [mapKeys]
      · intro k e hk
        refine ⟨subConfigOf k e, ?_, rfl, rfl, rfl⟩
        have hmem := mem_mapKeys_of_lookup _ _ _ hk
        have := lookup_map_key (mapKeys (groupOf tree "storages"))
          (fun k => subConfigOf k (groupOf (groupOf tree "storages") k)) k hmem
        simp only
        rw [this]
        have he : groupOf (groupOf tree "storages") k = e := by
          rw [groupOf_of_map _ _ e (by simp [hk])]
        simp only [he]
    · simp at h
  · intro hnone
    have hnm : ¬ ∃ m, (tree.lookup "storages").getD .null = .map m := by simp [hnone]
    have hr : groupResolves json tree "storages" = true := by
      rw [groupResolves_of_not_map json _ _ hnm]; simp [hnone, castToStringMap, mapKeys]
    rw [loadStoragesConfig_eq json model tree hv, if_pos hr, groupOf_of_not_map _ _ hnm]
    simp [mapKeys]

/-- C2, at the tree `store_with: {type: s3}` without a `storages` block, and at
a tree with one storage, with and without the legacy block. -/
theorem loadStoragesConfig_storages_only_witness :
    loadStoragesConfig jsonSample (modelOver onlyStoreWith)
      = ([.warn deprecatedStoreWith], .ok { modelOver onlyStoreWith with Storages := [] }) ∧
    (loadStoragesConfig jsonSample (modelOver oneStorageAndStoreWith)).2.map (fun m => m.Storages)
      = (loadStoragesConfig jsonSample (modelOver oneStorage)).2.map (fun m => m.Storages) ∧
    (loadStoragesConfig jsonSample (modelOver oneStorage)).2.map
        (fun m => m.Storages.map (fun p => (p.1, p.2.Name, p.2.Type_)))
      = .ok [("local", "local", "local")] :=
  ⟨rfl,
   (loadStoragesConfig_storages_only jsonSample (modelOver oneStorage) oneStorage rfl).1
      (modelOver oneStorageAndStoreWith) oneStorageAndStoreWith rfl rfl,
   rfl⟩

theorem viperOf_models (json : String → List (String × Value)) (env : Env)
    (doc : List (String × Value)) :
    (viperOf env doc).GetStringMap json "models" = stringMapOf json doc "models" := by
  simp only [Viper.GetStringMap, stringMapOf]
  rw [Get_single _ "models" (by rfl)]
  simp only [viperOf, Viper.SetDefault, mapSet]
  cases h : doc.lookup "models" with
  | none => rfl
  | some val => cases val <;> rfl

/-- C10: `GetModelByName` returns the first model of the sequence whose `Name`
is the name: it returns `m` exactly when the sequence splits into models with
other names, then `m` with that name, then the rest; and it returns nothing
exactly when no model of the sequence has the name. -/
theorem GetModelByName_first (models : List ModelConfig) (name : String) :
    (∀ m, GetModelByName models name = some m →
      ∃ pre post, models = pre ++ m :: post ∧ m.Name = name ∧ ∀ x ∈ pre, x.Name ≠ name) ∧
    (∀ pre m post, models = pre ++ m :: post → m.Name = name → (∀ x ∈ pre, x.Name ≠ name) →
      GetModelByName models name = some m) ∧
    (GetModelByName models name = none ↔ ∀ m ∈ models, m.Name ≠ name) := by
  refine ⟨?_, ?_, ?_⟩
  · induction models with
    | nil => intro m h; simp [GetModelByName] at h
    | cons a rest ih =>
      intro m h
      by_cases ha : a.Name = name
      · simp only [GetModelByName, ha, if_true, Option.some.injEq] at h
        subst h
        exact ⟨[], rest, rfl, ha, by simp⟩
      · simp only [GetModelByName, ha, if_false] at h
        obtain ⟨pre, post, hs, hm, hp⟩ := ih m h
        refine ⟨a :: pre, post, by simp [hs], hm, ?_⟩
        intro x hx
        rcases List.mem_cons.1 hx with rfl | hx
        · exact ha
        · exact hp x hx
  · intro pre
    induction pre generalizing models with
    | nil =>
      intro m post hs hm _
      subst hs
      simp [GetModelByName, hm]
    | cons a pre ih =>
      intro m post hs hm hp
      subst hs
      have ha : a.Name ≠ name := hp a (List.mem_cons_self _ _)
      simp only [List.cons_append, GetModelByName, ha, if_false]
      exact ih _ m post rfl hm (fun x hx => hp x (List.mem_cons_of_mem _ hx))
  · induction models with
    | nil => simp [GetModelByName]
    | cons a rest ih =>
      by_cases ha : a.Name = name
      · simp [GetModelByName, ha]
      · simp [GetModelByName, ha, ih]

/-- C10, on the sequence `a, b, b`: the first `b` is returned, and `c` gives
nothing. -/
theorem GetModelByName_first_witness :
    GetModelByName [namedModel "a" "1", namedModel "b" "2", namedModel "b" "3"] "b"
      = some (namedModel "b" "2") ∧
    GetModelByName [namedModel "a" "1", namedModel "b" "2", namedModel "b" "3"] "c" = none :=
  ⟨(GetModelByName_first _ "b").2.1 [namedModel "a" "1"] (namedModel "b" "2")
      [namedModel "b" "3"] rfl rfl (by decide),
   (GetModelByName_first _ "c").2.2.2 (by decide)⟩

/-- C9: when `viper.ReadInConfig` fails, `Init` returns with the package
variables as they were and only the error line logged, so no model is resolved;
started from the initial state it ends with `Exist = false` and no models. -/
theorem Init_load_failure (env : Env) (configFile : String) (s : State) (err : String)
    (h : env.readInConfig (locatorOf configFile) = .error err) :
    (Init env configFile s).state = s ∧
    (Init env configFile s).outcome = .returned ∧
    (Init env configFile s).log = [.error ("Load gobackup config faild: " ++ err)] ∧
    (Init env configFile State.initial).state.Exist = false ∧
    (Init env configFile State.initial).state.Models = [] := by
  simp [Init, h, State.initial]

/-- C9, where no configuration file exists and no path is given. -/
theorem Init_load_failure_witness :
    envNotFound.readInConfig (locatorOf "") = .error "Config File \"gobackup\" Not Found" ∧
    (Init envNotFound "" State.initial).state = State.initial ∧
    (Init envNotFound "" State.initial).outcome = .returned ∧
    (Init envNotFound "" State.initial).log
      = [.error ("Load gobackup config faild: " ++ "Config File \"gobackup\" Not Found")] ∧
    (Init envNotFound "" State.initial).state.Exist = false ∧
    (Init envNotFound "" State.initial).state.Models = [] :=
  ⟨rfl, Init_load_failure envNotFound "" State.initial _ rfl⟩

/-- C4, as the claim states it, fails: for the document `models: {}` the call
of `Init` that ends in the fatal condition has set `Exist` to true. -/
theorem Init_no_models_sets_Exist :
    mapKeys (stringMapOf jsonSample docNoModels "models") = [] ∧
    State.initial.Exist = false ∧
    (Init (envOf docNoModels (fun i => i)) "" State.initial).outcome = .fatal ∧
    (Init (envOf docNoModels (fun i => i)) "" State.initial).state.Exist = true := by
  decide

/-- C4, amended: for a loaded document with no entry under `models` (the
enumeration `GetStringMap("models")` is empty), `Init` ends in the fatal
condition, with the line `No model found in <file>` logged; at that point
`Exist` is true (the document was found) and `Models` is empty. -/
theorem Init_no_models (env : Env) (configFile fileUsed : String) (s : State)
    (doc : List (String × Value))
    (hload : env.readInConfig (locatorOf configFile) = .ok (fileUsed, doc))
    (hzero : mapKeys (stringMapOf env.jsonObject doc "models") = []) :
    (Init env configFile s).outcome = .fatal ∧
    (Init env configFile s).state.Exist = true ∧
    (Init env configFile s).state.Models = [] ∧
    (Init env configFile s).log = [.fatal ("No model found in " ++ fileUsed)] := by
  simp [Init, hload, viperOf_models, hzero, initLoop]

/-- C4 amended, at the document `models: {}`. -/
theorem Init_no_models_witness :
    (Init (envOf docNoModels (fun i => i)) "" State.initial).outcome = .fatal ∧
    (Init (envOf docNoModels (fun i => i)) "" State.initial).state.Exist = true ∧
    (Init (envOf docNoModels (fun i => i)) "" State.initial).state.Models = [] ∧
    (Init (envOf docNoModels (fun i => i)) "" State.initial).log
      = [.fatal ("No model found in " ++ "gobackup.yml")] :=
  Init_no_models (envOf docNoModels (fun i => i)) "" "gobackup.yml" State.initial docNoModels
    rfl (by decide)

/-- C5: at the document `models: {a: 5}` the sub-tree of model `a` is nil;
`loadModel` ends in the nil-pointer panic at its first use of the sub-tree and
`Init` ends in that panic: no `ModelTreeMissing` error exists. -/
theorem loadModel_scalar_model_panics :
    mapKeys (groupOf docScalarModel "models") = ["a"] ∧
    (viperOf (envOf docScalarModel (fun i => i)) docScalarModel).Sub ("models." ++ "a") = none ∧
    (loadModel jsonSample (viperOf (envOf docScalarModel (fun i => i)) docScalarModel) 0 "a").2
      = .error .nilPointerDereference ∧
    (Init (envOf docScalarModel (fun i => i)) "" State.initial).outcome
      = .panic .nilPointerDereference ∧
    (Init (envOf docScalarModel (fun i => i)) "" State.initial).state.Models = [] := by
  refine ⟨by decide, rfl, rfl, rfl, rfl⟩

/-- A `models` key bound to a string that holds a JSON object: the key of the
object is visited, its sub-tree is nil, and `Init` panics with nothing
logged. -/
theorem Init_json_models_panics :
    mapKeys (stringMapOf jsonSample docJsonModels "models") = ["a"] ∧
    mapKeys (groupOf docJsonModels "models") = [] ∧
    (Init (envOf docJsonModels (fun i => i)) "" State.initial).outcome
      = .panic .nilPointerDereference ∧
    (Init (envOf docJsonModels (fun i => i)) "" State.initial).log = [] := by
  refine ⟨by decide, by decide, rfl, rfl⟩

theorem mem_of_lookup {β : Type} (m : List (String × β)) (k : String) (v : β)
    (h : m.lookup k = some v) : (k, v) ∈ m := by
  induction m with
  | nil => simp at h
  | cons a rest ih =>
    obtain ⟨k2, v2⟩ := a
    by_cases hk : k = k2
    · subst hk
      simp only [List.lookup, beq_self_eq_true, Option.some.injEq] at h
      subst h
      exact List.mem_cons_self _ _
    · have hb : (k == k2) = false := by simpa using hk
      simp only [List.lookup, hb] at h
      exact List.mem_cons_of_mem _ (ih h)

theorem lookup_of_mem_nodup {β : Type} (m : List (String × β)) (k : String) (v : β)
    (hn : (m.map Prod.fst).Nodup) (h : (k, v) ∈ m) : m.lookup k = some v := by
  induction m with
  | nil => simp at h
  | cons a rest ih =>
    obtain ⟨k2, v2⟩ := a
    simp only [List.map_cons, List.nodup_cons, List.mem_map, not_exists, not_and] at hn
    rcases List.mem_cons.1 h with h | h
    · injection h with h1 h2
      subst h1; subst h2
      simp [List.lookup]
    · have hk : k ≠ k2 := fun e => hn.1 (k, v) h e
      have hb : (k == k2) = false := by simpa using hk
      simp only [List.lookup, hb]
      exact ih hn.2 h

theorem mem_mapEntries {β : Type} (m : List (String × β)) (k : String) (v : β) :
    (k, v) ∈ mapEntries m ↔ m.lookup k = some v := by
  simp only [mapEntries, List.mem_filterMap, Option.map_eq_some', Prod.mk.injEq]
  constructor
  · rintro ⟨k', _, v', hv, rfl, rfl⟩
    exact hv
  · intro h
    exact ⟨k, mem_mapKeys_of_lookup m k v h, v, h, rfl, rfl⟩

theorem getDatabaseLoop_some (entries : List (String × SubConfig)) (name : String)
    (sc : SubConfig) (h : getDatabaseLoop entries name = some sc) :
    sc.Name = name ∧ ∃ k, (k, sc) ∈ entries := by
  induction entries with
  | nil => simp [getDatabaseLoop] at h
  | cons a rest ih =>
    obtain ⟨k, m⟩ := a
    by_cases hm : m.Name = name
    · simp only [getDatabaseLoop, hm, if_true, Option.some.injEq] at h
      subst h
      exact ⟨hm, k, List.mem_cons_self _ _⟩
    · simp only [getDatabaseLoop, hm, if_false] at h
      obtain ⟨h1, k', h2⟩ := ih h
      exact ⟨h1, k', List.mem_cons_of_mem _ h2⟩

theorem getDatabaseLoop_none (entries : List (String × SubConfig)) (name : String)
    (h : getDatabaseLoop entries name = none) : ∀ p ∈ entries, p.2.Name ≠ name := by
  induction entries with
  | nil => simp
  | cons a rest ih =>
    obtain ⟨k, m⟩ := a
    by_cases hm : m.Name = name
    · simp [getDatabaseLoop, hm] at h
    · simp only [getDatabaseLoop, hm, if_false] at h
      intro p hp
      rcases List.mem_cons.1 hp with rfl | hp
      · exact hm
      · exact ih h p hp

/-- C8: `GetDatabaseByName` matches on the `Name` field of the entries of the
`Databases` mapping: a result is an entry of the mapping whose `Name` is the
name, and there is a result exactly when such an entry exists. For a model
that `loadDatabasesConfig` built, in whatever order the mapping is visited, the
result is the entry stored under the key `name`, and a name that is no key of
the `databases` group gives no result. -/
theorem GetDatabaseByName_by_Name (json : String → List (String × Value))
    (model : ModelConfig) (name : String) :
    (∀ sc, model.GetDatabaseByName name = some sc →
        sc.Name = name ∧ ∃ k, model.Databases.lookup k = some sc) ∧
    ((∃ sc, model.GetDatabaseByName name = some sc) ↔
        ∃ k sc, model.Databases.lookup k = some sc ∧ sc.Name = name) ∧
    (∀ (tree : List (String × Value)) (built : ModelConfig),
        model.Viper = some { config := tree, defaults := [] } →
        loadDatabasesConfig json model = .ok built →
        ∀ dbs : List (String × SubConfig), dbs.Perm built.Databases →
          ModelConfig.GetDatabaseByName { built with Databases := dbs } name
            = built.Databases.lookup name ∧
          (name ∉ mapKeys (groupOf tree "databases") →
            ModelConfig.GetDatabaseByName { built with Databases := dbs } name = none)) := by
  have h1 : ∀ (model : ModelConfig) sc, model.GetDatabaseByName name = some sc →
      sc.Name = name ∧ ∃ k, model.Databases.lookup k = some sc := by
    intro model sc h
    obtain ⟨hn, k, hk⟩ := getDatabaseLoop_some _ _ _ h
    exact ⟨hn, k, (mem_mapEntries _ _ _).1 hk⟩
  have h2 : ∀ (model : ModelConfig), (∃ k sc, model.Databases.lookup k = some sc ∧ sc.Name = name) →
      ∃ sc, model.GetDatabaseByName name = some sc := by
    rintro model ⟨k, sc, hk, hn⟩
    cases hres : model.GetDatabaseByName name with
    | some sc' => exact ⟨sc', rfl⟩
    | none =>
      exact absurd hn (getDatabaseLoop_none _ _ hres (k, sc) ((mem_mapEntries _ _ _).2 hk))
  refine ⟨h1 model, ⟨?_, h2 model⟩, ?_⟩
  · rintro ⟨sc, h⟩
    obtain ⟨hn, k, hk⟩ := h1 model sc h
    exact ⟨k, sc, hk, hn⟩
  · intro tree built hv hb dbs hperm
    rw [loadDatabasesConfig_eq json model tree hv] at hb
    split at hb
    swap
    · simp at hb
    injection hb with hb
    subst hb
    simp only at hperm ⊢
    set keys := mapKeys (groupOf tree "databases") with hkeys
    set f : String → SubConfig := fun k => subConfigOf k
      (groupOf (groupOf tree "databases") k) with hf
    have hfn : ∀ k, (f k).Name = k := fun k => rfl
    have hnd : (dbs.map Prod.fst).Nodup := by
      have := (hperm.map Prod.fst).nodup_iff.2
        (by simpa [List.map_map, Function.comp_def] using mapKeys_nodup (groupOf tree "databases"))
      exact this
    have hmem : ∀ k sc, (k, sc) ∈ dbs ↔ k ∈ keys ∧ sc = f k := by
      intro k sc
      rw [hperm.mem_iff]
      simp only [List.mem_map, Prod.mk.injEq]
      constructor
      · rintro ⟨a, ha, rfl, rfl⟩; exact ⟨ha, rfl⟩
      · rintro ⟨ha, rfl⟩; exact ⟨k, ha, rfl, rfl⟩
    have key : ModelConfig.GetDatabaseByName
        { Name := model.Name, TempPath := model.TempPath, DumpPath := model.DumpPath,
          CompressWith := model.CompressWith, EncryptWith := model.EncryptWith,
          Archive := model.Archive, Databases := dbs, Storages := model.Storages,
          Viper := model.Viper } name
        = if name ∈ keys then some (f name) else none := by
      cases hres : ModelConfig.GetDatabaseByName
        { Name := model.Name, TempPath := model.TempPath, DumpPath := model.DumpPath,
          CompressWith := model.CompressWith, EncryptWith := model.EncryptWith,
          Archive := model.Archive, Databases := dbs, Storages := model.Storages,
          Viper := model.Viper } name with
      | some sc =>
        obtain ⟨hn, k, hk⟩ := h1 _ sc hres
        obtain ⟨hk1, hk2⟩ := (hmem k sc).1 (mem_of_lookup _ _ _ hk)
        have : k = name := by rw [← hn, hk2, hfn]
        subst this
        simp [hk1, hk2]
      | none =>
        by_cases hin : name ∈ keys
        · have hl := lookup_of_mem_nodup dbs name (f name) hnd ((hmem _ _).2 ⟨hin, rfl⟩)
          obtain ⟨sc, hsc⟩ := h2
            { Name := model.Name, TempPath := model.TempPath, DumpPath := model.DumpPath,
              CompressWith := model.CompressWith, EncryptWith := model.EncryptWith,
              Archive := model.Archive, Databases := dbs, Storages := model.Storages,
              Viper := model.Viper } ⟨name, f name, hl, hfn name⟩
          rw [hres] at hsc
          exact absurd hsc (by simp)
        · simp [hin]
    constructor
    · rw [key]
      by_cases hin : name ∈ keys
      · rw [if_pos hin, lookup_map_key keys f name hin]
      · rw [if_neg hin, lookup_map_key_none keys f name hin]
    · intro hnot
      rw [key, if_neg hnot]

/-- C8, at the model built from `databases: {db1: {type: mysql}, db2: {type:
postgres}}`: `db2` gives the postgres entry, `missing` gives nothing. -/
theorem GetDatabaseByName_by_Name_witness :
    (∃ built, loadDatabasesConfig jsonSample (modelOver twoDatabases) = .ok built ∧
      (built.GetDatabaseByName "db2").map (fun sc => sc.Type_) = some "postgres" ∧
      (built.GetDatabaseByName "missing").map (fun sc => sc.Type_) = none) ∧
    (∀ built, loadDatabasesConfig jsonSample (modelOver twoDatabases) = .ok built →
      ∀ dbs : List (String × SubConfig), dbs.Perm built.Databases →
        ModelConfig.GetDatabaseByName { built with Databases := dbs } "missing"
            = built.Databases.lookup "missing" ∧
          ("missing" ∉ mapKeys (groupOf twoDatabases "databases") →
            ModelConfig.GetDatabaseByName { built with Databases := dbs } "missing" = none)) :=
  ⟨⟨_, rfl, rfl, rfl⟩,
   fun built hb =>
    (GetDatabaseByName_by_Name jsonSample (modelOver twoDatabases) "missing").2.2
      twoDatabases built rfl hb⟩

/-! ### Decimal rendering -/

theorem toDigitsCore_acc (f n : Nat) (ds : List Char) :
    Nat.toDigitsCore 10 f n ds = Nat.toDigitsCore 10 f n [] ++ ds := by
  induction f generalizing n ds with
  | zero => simp [Nat.toDigitsCore]
  | succ f ih =>
    simp only [Nat.toDigitsCore]
    split
    · simp
    · rw [ih (n / 10) (Nat.digitChar (n % 10) :: ds), ih (n / 10) [Nat.digitChar (n % 10)]]
      simp

/-- The value of a decimal digit character. -/
theorem digitChar_toNat (d : Nat) (h : d < 10) : (Nat.digitChar d).toNat - 48 = d := by
  interval_cases d <;> rfl

theorem digitChar_plain (d : Nat) (h : d < 10) :
    Nat.digitChar d ≠ '/' ∧ Nat.digitChar d ≠ '.' ∧ Nat.digitChar d ≠ '-' := by
  interval_cases d <;> decide

theorem toDigitsCore_chars (f n : Nat) :
    ∀ c ∈ Nat.toDigitsCore 10 f n [], ∃ d, d < 10 ∧ c = Nat.digitChar d := by
  induction f generalizing n with
  | zero => simp [Nat.toDigitsCore]
  | succ f ih =>
    intro c hc
    simp only [Nat.toDigitsCore] at hc
    split at hc
    · simp only [List.mem_singleton] at hc
      exact ⟨n % 10, Nat.mod_lt _ (by decide), hc⟩
    · rw [toDigitsCore_acc] at hc
      rcases List.mem_append.1 hc with h | h
      · exact ih _ c h
      · simp only [List.mem_singleton] at h
        exact ⟨n % 10, Nat.mod_lt _ (by decide), h⟩

theorem toDigitsCore_ne_nil (f n : Nat) : Nat.toDigitsCore 10 (f + 1) n [] ≠ [] := by
  simp only [Nat.toDigitsCore]
  split
  · simp
  · rw [toDigitsCore_acc]; simp

theorem decode_toDigitsCore (f n : Nat) (h : n < f) :
    (Nat.toDigitsCore 10 f n []).foldl (fun a c => a * 10 + (c.toNat - 48)) 0 = n := by
  induction f generalizing n with
  | zero => omega
  | succ f ih =>
    simp only [Nat.toDigitsCore]
    split
    · next h0 =>
      simp only [List.foldl_cons, List.foldl_nil, Nat.zero_mul, Nat.zero_add]
      rw [digitChar_toNat _ (Nat.mod_lt _ (by decide))]
      omega
    · next h0 =>
      rw [toDigitsCore_acc, List.foldl_append, ih (n / 10) (by omega)]
      simp only [List.foldl_cons, List.foldl_nil]
      rw [digitChar_toNat _ (Nat.mod_lt _ (by decide))]
      omega

theorem toDigits_injective (a b : Nat) (h : Nat.toDigits 10 a = Nat.toDigits 10 b) : a = b := by
  have ha := decode_toDigitsCore (a + 1) a (by omega)
  have hb := decode_toDigitsCore (b + 1) b (by omega)
  simp only [Nat.toDigits] at h
  rw [h] at ha
  omega

theorem toDigits_chars (n : Nat) :
    ∀ c ∈ Nat.toDigits 10 n, c ≠ '/' ∧ c ≠ '.' ∧ c ≠ '-' := by
  intro c hc
  obtain ⟨d, hd, rfl⟩ := toDigitsCore_chars _ _ c hc
  exact digitChar_plain d hd

theorem formatInt_injective (a b : Int) (h : formatInt a = formatInt b) : a = b := by
  unfold formatInt at h
  by_cases ha : a < 0 <;> by_cases hb : b < 0
  · simp only [ha, hb, if_true, List.cons.injEq, true_and] at h
    have := toDigits_injective _ _ h
    omega
  · simp only [ha, hb, if_true, if_false] at h
    have hmem : '-' ∈ Nat.toDigits 10 b.toNat := by rw [← h]; simp
    exact absurd rfl (toDigits_chars _ _ hmem).2.2
  · simp only [ha, hb, if_true, if_false] at h
    have hmem : '-' ∈ Nat.toDigits 10 a.toNat := by rw [h]; simp
    exact absurd rfl (toDigits_chars _ _ hmem).2.2
  · simp only [ha, hb, if_false] at h
    have := toDigits_injective _ _ h
    omega

/-- A path element that `path.Clean` keeps as it is: not empty, without a
slash, and neither `.` nor `..`. -/
theorem formatInt_plain (n : Int) :
    formatInt n ≠ [] ∧ '/' ∉ formatInt n ∧ '.' ∉ formatInt n := by
  unfold formatInt
  split
  · refine ⟨by simp, ?_, ?_⟩
    · intro h
      rcases List.mem_cons.1 h with h | h
      · exact absurd h (by decide)
      · exact (toDigits_chars _ _ h).1 rfl
    · intro h
      rcases List.mem_cons.1 h with h | h
      · exact absurd h (by decide)
      · exact (toDigits_chars _ _ h).2.1 rfl
  · refine ⟨toDigitsCore_ne_nil _ _, ?_, ?_⟩
    · intro h; exact (toDigits_chars _ _ h).1 rfl
    · intro h; exact (toDigits_chars _ _ h).2.1 rfl

/-! ### `path.Clean` and `path.Join` -/

theorem splitOn_append (sep : Char) (a b : List Char) :
    splitOn sep (a ++ sep :: b) = splitOn sep a ++ splitOn sep b := by
  induction a with
  | nil => simp [splitOn]
  | cons c cs ih =>
    simp only [List.cons_append, splitOn, List.append_eq]
    split
    · simp [ih]
    · rw [ih]
      cases hs : splitOn sep cs with
      | nil => exact absurd hs (splitOn_ne_nil _ _)
      | cons w ws => simp

theorem splitOn_plain (sep : Char) (s : List Char) (h : sep ∉ s) : splitOn sep s = [s] := by
  induction s with
  | nil => rfl
  | cons c cs ih =>
    simp only [List.mem_cons, not_or] at h
    have hc : ¬ c = sep := fun e => h.1 e.symm
    simp [splitOn, hc, ih h.2]

theorem splitOn_no_sep (sep : Char) (s : List Char) : ∀ w ∈ splitOn sep s, sep ∉ w := by
  induction s with
  | nil => simp [splitOn]
  | cons c cs ih =>
    intro w hw
    simp only [splitOn] at hw
    split at hw
    · rcases List.mem_cons.1 hw with rfl | hw
      · simp
      · exact ih w hw
    · next hc =>
      cases hs : splitOn sep cs with
      | nil => exact absurd hs (splitOn_ne_nil _ _)
      | cons w0 ws =>
        rw [hs] at hw ih
        rcases List.mem_cons.1 hw with rfl | hw
        · have := ih w0 (List.mem_cons_self _ _)
          simp only [List.mem_cons, not_or]
          exact ⟨fun e => hc e.symm, this⟩
        · exact ih w (List.mem_cons_of_mem _ hw)

theorem cleanStep_plain (rooted : Bool) (out : List (List Char)) (s : List Char)
    (h : plainElement s) : cleanStep rooted out s = s :: out := by
  obtain ⟨h1, _, h3, h4⟩ := h
  simp [cleanStep, h1, h3, h4]

theorem joinWith_snoc (sep : Char) (xs : List (List Char)) (s : List Char) :
    joinWith sep (xs ++ [s]) = if xs = [] then s else joinWith sep xs ++ sep :: s := by
  induction xs with
  | nil => simp [joinWith]
  | cons x rest ih =>
    cases rest with
    | nil => simp [joinWith]
    | cons y ys =>
      simp only [List.cons_append, joinWith, reduceCtorEq, if_false, List.append_eq] at ih ⊢
      rw [ih]; simp

theorem cleanStack_snoc (w s : List Char) (hw : w ≠ []) (hs : plainElement s) :
    cleanStack (w ++ '/' :: s) = s :: cleanStack w := by
  have hh : (w ++ '/' :: s).head? = w.head? := by
    cases w with
    | nil => exact absurd rfl hw
    | cons c cs => rfl
  simp only [cleanStack, hh, splitOn_append, splitOn_plain '/' s hs.2.1, List.foldl_append,
    List.foldl_cons, List.foldl_nil]
  exact cleanStep_plain _ _ _ hs

/-- Clean of a path followed by a plain element. -/
theorem cleanChars_snoc (w s : List Char) (hw : w ≠ []) (hs : plainElement s) :
    cleanChars (w ++ '/' :: s) =
      if cleanStack w = [] then (if w.head? == some '/' then '/' :: s else s)
      else cleanChars w ++ '/' :: s := by
  have hh : (w ++ '/' :: s).head? = w.head? := by
    cases w with
    | nil => exact absurd rfl hw
    | cons c cs => rfl
  have hne : w ++ '/' :: s ≠ [] := by simp
  have hst := cleanStack_snoc w s hw hs
  simp only [cleanStack, hh] at hst
  unfold cleanChars
  simp only [hne, hw, if_false, hh, hst, List.reverse_cons, cleanStack, joinWith_snoc]
  by_cases hr : (w.head? == some '/') = true
  · simp only [hr, if_true, List.reverse_eq_nil_iff]
    split <;> simp
  · simp only [hr, List.reverse_eq_nil_iff]
    split <;> simp_all

theorem cleanChars_plain (s : List Char) (hs : plainElement s) : cleanChars s = s := by
  have hne : s ≠ [] := hs.1
  have hroot : (s.head? == some '/') = false := by
    cases s with
    | nil => exact absurd rfl hne
    | cons c cs =>
      have : '/' ≠ c := fun e => hs.2.1 (e ▸ List.mem_cons_self _ _)
      simp only [List.head?_cons, beq_eq_false_iff_ne, ne_eq, Option.some.injEq]
      exact fun e => this e.symm
  unfold cleanChars
  simp [hne, hroot, splitOn_plain '/' s hs.2.1, cleanStep_plain _ _ _ hs, joinWith]

/-- The characters of `path.Join` of a directory and a plain element. -/
theorem Join_plain (w : String) (s : List Char) (hs : plainElement s) :
    (Join [w, ⟨s⟩]).data =
      if w.data = [] then s
      else if cleanStack w.data = [] then (if w.data.head? == some '/' then '/' :: s else s)
      else cleanChars w.data ++ '/' :: s := by
  have hne : s ≠ [] := hs.1
  by_cases hw : w.data = []
  · simp [Join, hw, hne, List.dropWhile, joinWith, cleanChars_plain s hs]
  · simp only [Join, List.map_cons, List.map_nil, List.dropWhile, hw, decide_False, joinWith,
      if_false]
    exact cleanChars_snoc _ _ hw hs

theorem Join_plain_injective (w : String) (s t : List Char) (hs : plainElement s)
    (ht : plainElement t) (h : Join [w, ⟨s⟩] = Join [w, ⟨t⟩]) : s = t := by
  have h' := congrArg String.data h
  rw [Join_plain w s hs, Join_plain w t ht] at h'
  split at h'
  · exact h'
  · split at h'
    · split at h'
      · simpa using h'
      · exact h'
    · simpa using h'

theorem Join_plain_isPrefix (w : String) (s : List Char) (hs : plainElement s)
    (hw : w = "" ∨ (Clean w = w ∧ w ≠ ".")) : w.data <+: (Join [w, ⟨s⟩]).data := by
  rw [Join_plain w s hs]
  rcases hw with rfl | ⟨hc, hd⟩
  · simp
  · have hcd : cleanChars w.data = w.data := congrArg String.data hc
    have hne : w.data ≠ [] := by
      intro h
      rw [h] at hcd
      simp [cleanChars] at hcd
    simp only [hne, if_false]
    split
    · next hst =>
      have hcl := hcd
      unfold cleanChars at hcl
      simp only [hne, if_false] at hcl
      simp only [cleanStack] at hst
      simp only [hst, List.reverse_nil, joinWith, if_true] at hcl
      split
      · next hr =>
        simp only [hr, if_true] at hcl
        rw [← hcl]; simp
      · next hr =>
        simp only [hr] at hcl
        exfalso
        apply hd
        have : w = ⟨w.data⟩ := rfl
        rw [this, ← hcl]
        rfl
    · rw [hcd]; simp

theorem canonStack_step (rooted : Bool) (out : List (List Char)) (c : List Char)
    (hc : '/' ∉ c) (h : canonStack rooted out) : canonStack rooted (cleanStep rooted out c) := by
  unfold cleanStep
  split
  · exact h
  · split
    · exact h
    · next h1 h2 =>
      split
      · next hd =>
        cases out with
        | nil =>
          cases rooted with
          | true => simpa using h
          | false =>
            simp only [Bool.false_eq_true, if_false]
            exact ⟨h1, hc, h2, fun _ => ⟨rfl, by simp⟩, trivial⟩
        | cons top rest =>
          simp only
          obtain ⟨t1, t2, t3, t4, t5⟩ := h
          split
          · exact t5
          · next htop =>
            have htop' : top = dotdot := by simpa using htop
            obtain ⟨hr, hall⟩ := t4 htop'
            subst hr
            simp only [Bool.false_eq_true, if_false]
            refine ⟨h1, hc, h2, fun _ => ⟨rfl, ?_⟩, t1, t2, t3, t4, t5⟩
            intro r hr
            rcases List.mem_cons.1 hr with rfl | hr
            · exact htop'
            · exact hall r hr
      · next hd =>
        exact ⟨h1, hc, h2, fun e => absurd e hd, h⟩

theorem canonStack_foldl (rooted : Bool) (cs : List (List Char)) (out : List (List Char))
    (hc : ∀ c ∈ cs, '/' ∉ c) (h : canonStack rooted out) :
    canonStack rooted (cs.foldl (cleanStep rooted) out) := by
  induction cs generalizing out with
  | nil => exact h
  | cons c rest ih =>
    simp only [List.foldl_cons]
    exact ih _ (fun x hx => hc x (List.mem_cons_of_mem _ hx))
      (canonStack_step rooted out c (hc c (List.mem_cons_self _ _)) h)

theorem canonStack_cleanStack (p : List Char) :
    canonStack (p.head? == some '/') (cleanStack p) :=
  canonStack_foldl _ _ _ (splitOn_no_sep '/' p) trivial

theorem canonStack_mem (rooted : Bool) (out : List (List Char)) (h : canonStack rooted out) :
    ∀ c ∈ out, c ≠ [] ∧ '/' ∉ c := by
  induction out with
  | nil => simp
  | cons top rest ih =>
    obtain ⟨t1, t2, _, _, t5⟩ := h
    intro c hc
    rcases List.mem_cons.1 hc with rfl | hc
    · exact ⟨t1, t2⟩
    · exact ih t5 c hc

theorem canonStack_replay (rooted : Bool) (out : List (List Char)) (h : canonStack rooted out) :
    out.reverse.foldl (cleanStep rooted) [] = out := by
  induction out with
  | nil => rfl
  | cons top rest ih =>
    obtain ⟨t1, t2, t3, t4, t5⟩ := h
    rw [List.reverse_cons, List.foldl_append, ih t5]
    simp only [List.foldl_cons, List.foldl_nil]
    by_cases hd : top = dotdot
    · obtain ⟨hr, hall⟩ := t4 hd
      subst hr
      subst hd
      cases rest with
      | nil => simp [cleanStep, dotdot]
      | cons r rs =>
        have := hall r (List.mem_cons_self _ _)
        subst this
        simp [cleanStep, dotdot]
    · exact cleanStep_plain _ _ _ ⟨t1, t2, t3, hd⟩

theorem splitOn_joinWith (sep : Char) (comps : List (List Char)) (hne : comps ≠ [])
    (h : ∀ c ∈ comps, sep ∉ c) : splitOn sep (joinWith sep comps) = comps := by
  induction comps with
  | nil => exact absurd rfl hne
  | cons c rest ih =>
    cases rest with
    | nil => simpa [joinWith] using splitOn_plain sep c (h c (List.mem_cons_self _ _))
    | cons c2 rest2 =>
      simp only [joinWith]
      rw [splitOn_append, splitOn_plain sep c (h c (List.mem_cons_self _ _)),
        ih (by simp) (fun x hx => h x (List.mem_cons_of_mem _ hx))]
      rfl

theorem joinWith_head (sep : Char) (c : List Char) (rest : List (List Char)) (hc : c ≠ []) :
    (joinWith sep (c :: rest)).head? = c.head? ∧ joinWith sep (c :: rest) ≠ [] := by
  cases c with
  | nil => exact absurd rfl hc
  | cons x xs => cases rest <;> simp [joinWith]

/-- Go `path.Clean` is idempotent. -/
theorem cleanChars_idem (p : List Char) : cleanChars (cleanChars p) = cleanChars p := by
  by_cases hp : p = []
  · subst hp; rfl
  have hcanon := canonStack_cleanStack p
  have hmem := canonStack_mem _ _ hcanon
  have hreplay := canonStack_replay _ _ hcanon
  have hq : cleanChars p =
      if (p.head? == some '/') = true then '/' :: joinWith '/' (cleanStack p).reverse
      else if cleanStack p = [] then ['.'] else joinWith '/' (cleanStack p).reverse := by
    simp [cleanChars, hp, cleanStack]
  rw [hq]
  by_cases hr : (p.head? == some '/') = true
  · simp only [hr, if_true] at hreplay ⊢
    by_cases hout : cleanStack p = []
    · rw [hout]; rfl
    · have hsplit := splitOn_joinWith '/' (cleanStack p).reverse (by simpa using hout)
        (fun c hc => (hmem c (List.mem_reverse.1 hc)).2)
      have hsp : splitOn '/' ('/' :: joinWith '/' (cleanStack p).reverse)
          = [] :: (cleanStack p).reverse := by
        simp [splitOn, hsplit]
      unfold cleanChars
      simp only [reduceCtorEq, if_false, List.head?_cons, beq_self_eq_true, if_true, hsp,
        List.foldl_cons]
      have h0 : cleanStep true [] [] = [] := rfl
      rw [h0, hreplay]
  · simp only [hr] at hreplay ⊢
    simp only [Bool.false_eq_true, if_false]
    by_cases hout : cleanStack p = []
    · rw [if_pos hout]; rfl
    · rw [if_neg hout]
      have hsplit := splitOn_joinWith '/' (cleanStack p).reverse (by simpa using hout)
        (fun c hc => (hmem c (List.mem_reverse.1 hc)).2)
      obtain ⟨c, rest, hcr⟩ : ∃ c rest, (cleanStack p).reverse = c :: rest := by
        cases h : (cleanStack p).reverse with
        | nil => exact absurd (List.reverse_eq_nil_iff.1 h) hout
        | cons c rest => exact ⟨c, rest, rfl⟩
      have hc := hmem c (List.mem_reverse.1 (by rw [hcr]; exact List.mem_cons_self _ _))
      obtain ⟨hhead, hnil⟩ := joinWith_head '/' c rest hc.1
      have hroot : ((joinWith '/' (cleanStack p).reverse).head? == some '/') = false := by
        rw [hcr, hhead]
        cases c with
        | nil => exact absurd rfl hc.1
        | cons x xs =>
          have : '/' ≠ x := fun e => hc.2 (e ▸ List.mem_cons_self _ _)
          simp only [List.head?_cons, beq_eq_false_iff_ne, ne_eq, Option.some.injEq]
          exact fun e => this e.symm
      rw [← hcr] at hnil
      unfold cleanChars
      simp only [hnil, if_false, hroot, hsplit, hreplay, hout, Bool.false_eq_true]

theorem Clean_idem (p : String) : Clean (Clean p) = Clean p := by
  simp only [Clean, cleanChars_idem]

theorem Join_clean (elem : List String) : Join elem = "" ∨ Clean (Join elem) = Join elem := by
  unfold Join
  split
  · exact Or.inl rfl
  · exact Or.inr (by simp only [Clean, cleanChars_idem])

/-! ### When a joined path starts with its directory -/

theorem stackSize_step (rooted : Bool) (out : List (List Char)) (c : List Char) :
    stackSize (cleanStep rooted out c) ≤ stackSize out + (c.length + 1) := by
  unfold cleanStep
  split
  · omega
  · split
    · omega
    · split
      · cases out with
        | nil => cases rooted <;> simp [stackSize]
        | cons top rest =>
          simp only
          split
          · simp only [stackSize, List.map_cons, List.sum_cons]; omega
          · cases rooted
            · simp [stackSize]; omega
            · simp only [if_true, le_add_iff_nonneg_right]; omega
      · simp only [stackSize, List.map_cons, List.sum_cons]; omega

theorem stackSize_foldl (rooted : Bool) (cs out : List (List Char)) :
    stackSize (cs.foldl (cleanStep rooted) out) ≤ stackSize out + stackSize cs := by
  induction cs generalizing out with
  | nil => simp [stackSize]
  | cons c rest ih =>
    simp only [List.foldl_cons]
    have h1 := ih (cleanStep rooted out c)
    have h2 := stackSize_step rooted out c
    simp only [stackSize, List.map_cons, List.sum_cons] at h1 h2 ⊢
    omega

theorem joinWith_length (sep : Char) (cs : List (List Char)) (h : cs ≠ []) :
    (joinWith sep cs).length + 1 = stackSize cs := by
  induction cs with
  | nil => exact absurd rfl h
  | cons c rest ih =>
    cases rest with
    | nil => simp [joinWith, stackSize]
    | cons c2 rest2 =>
      have := ih (by simp)
      simp only [joinWith, stackSize, List.map_cons, List.sum_cons, List.length_append,
        List.length_cons] at this ⊢
      omega

theorem stackSize_reverse (out : List (List Char)) : stackSize out.reverse = stackSize out := by
  simp [stackSize, List.sum_reverse]

theorem stackSize_splitOn (sep : Char) (s : List Char) :
    stackSize (splitOn sep s) = s.length + 1 := by
  have h := joinWith_length sep (splitOn sep s) (splitOn_ne_nil sep s)
  rw [joinWith_splitOn] at h
  exact h.symm

theorem cleanChars_eq (p : List Char) (hp : p ≠ []) :
    cleanChars p =
      if (p.head? == some '/') = true then '/' :: joinWith '/' (cleanStack p).reverse
      else if cleanStack p = [] then ['.'] else joinWith '/' (cleanStack p).reverse := by
  simp [cleanChars, hp, cleanStack]

theorem cleanStack_size (p : List Char) (hp : p ≠ []) :
    stackSize (cleanStack p) ≤ if (p.head? == some '/') = true then p.length else p.length + 1 := by
  cases p with
  | nil => exact absurd rfl hp
  | cons c cs =>
    by_cases hc : c = '/'
    · subst hc
      have h := stackSize_foldl true (splitOn '/' cs) []
      rw [stackSize_splitOn] at h
      have hs : cleanStack ('/' :: cs) = (splitOn '/' cs).foldl (cleanStep true) [] := by
        simp [cleanStack, splitOn, cleanStep]
      rw [hs]
      simp only [List.head?_cons, beq_self_eq_true, if_true, List.length_cons]
      simp only [stackSize, List.map_nil, List.sum_nil] at h ⊢
      omega
    · have hr : ((c :: cs).head? == some '/') = false := by simpa using hc
      have h := stackSize_foldl false (splitOn '/' (c :: cs)) []
      rw [stackSize_splitOn] at h
      simp only [cleanStack, hr]
      simp only [Bool.false_eq_true, if_false]
      simp only [stackSize, List.map_nil, List.sum_nil] at h ⊢
      omega

theorem cleanChars_length (p : List Char) (hp : p ≠ []) :
    (cleanChars p).length ≤ p.length := by
  have hsize := cleanStack_size p hp
  have hpos : 1 ≤ p.length := by
    cases p with
    | nil => exact absurd rfl hp
    | cons c cs => simp
  rw [cleanChars_eq p hp]
  by_cases hout : cleanStack p = []
  · rw [hout]
    split <;> simpa [joinWith] using hpos
  · have hj := joinWith_length '/' (cleanStack p).reverse (by simpa using hout)
    rw [stackSize_reverse] at hj
    split
    · next hr =>
      rw [if_pos hr] at hsize
      simp only [List.length_cons]
      omega
    · next hr =>
      rw [if_neg hr] at hsize
      omega

theorem cleanChars_of_empty_stack (p : List Char) (hp : p ≠ []) (h : cleanStack p = []) :
    cleanChars p = if (p.head? == some '/') = true then ['/'] else ['.'] := by
  rw [cleanChars_eq p hp, h]
  split <;> simp [joinWith]

theorem cleanChars_of_stack (p : List Char) (hp : p ≠ []) (h : cleanStack p ≠ []) :
    cleanChars p ≠ ['.'] ∧ cleanChars p ≠ ['/'] ∧ cleanChars p ≠ [] := by
  have hcanon := canonStack_cleanStack p
  have hj := joinWith_length '/' (cleanStack p).reverse (by simpa using h)
  rw [stackSize_reverse] at hj
  rw [cleanChars_eq p hp]
  obtain ⟨top, rest, hst⟩ : ∃ top rest, cleanStack p = top :: rest := by
    cases hc : cleanStack p with
    | nil => exact absurd hc h
    | cons top rest => exact ⟨top, rest, rfl⟩
  rw [hst] at hcanon
  obtain ⟨t1, t2, t3, _, _⟩ := hcanon
  have htop : 1 ≤ top.length := by
    cases top with
    | nil => exact absurd rfl t1
    | cons x xs => simp
  split
  · refine ⟨by simp, ?_, by simp⟩
    intro hh
    have hj0 : joinWith '/' (cleanStack p).reverse = [] := by simpa using hh
    rw [hj0, hst] at hj
    simp only [stackSize, List.map_cons, List.sum_cons, List.length_nil] at hj
    omega
  · cases rest with
    | nil =>
      rw [hst]
      simp only [List.reverse_cons, List.reverse_nil, List.nil_append, joinWith]
      refine ⟨t3, ?_, t1⟩
      intro hh
      exact t2 (by rw [hh]; simp)
    | cons r rs =>
      have hsz : top.length + 1 + (r.length + 1) ≤ stackSize (cleanStack p) := by
        rw [hst]
        simp only [stackSize, List.map_cons, List.sum_cons]
        omega
      have hlen : 2 ≤ (joinWith '/' (cleanStack p).reverse).length := by omega
      refine ⟨?_, ?_, ?_⟩ <;>
      · intro hh
        rw [hh] at hlen
        simp at hlen

theorem plainElement_of_initial (u s : List Char) (hu : u ≠ []) (hp : u <+: s) (hs2 : '/' ∉ s)
    (hs3 : '.' ∉ s) : plainElement u := by
  have hsub : ∀ c ∈ u, c ∈ s := fun c hc => hp.subset hc
  refine ⟨hu, fun h => hs2 (hsub _ h), ?_, ?_⟩
  · intro h; exact hs3 (hsub _ (by rw [h]; simp))
  · intro h; exact hs3 (hsub _ (by rw [h]; simp [dotdot]))

theorem cleanStack_plain (u : List Char) (hu : plainElement u) : cleanStack u = [u] := by
  have hroot : (u.head? == some '/') = false := by
    cases u with
    | nil => exact absurd rfl hu.1
    | cons c cs =>
      have : '/' ≠ c := fun e => hu.2.1 (e ▸ List.mem_cons_self _ _)
      simp only [List.head?_cons, beq_eq_false_iff_ne, ne_eq, Option.some.injEq]
      exact fun e => this e.symm
  simp [cleanStack, hroot, splitOn_plain '/' u hu.2.1, cleanStep_plain _ _ _ hu]

theorem cleanStack_rooted_plain (u : List Char) (hu : plainElement u) :
    cleanStack ('/' :: u) = [u] := by
  have h : cleanStack ('/' :: u) = cleanStep true (cleanStep true [] []) u := by
    simp [cleanStack, splitOn, splitOn_plain '/' u hu.2.1]
  rw [h, show cleanStep true [] [] = [] from rfl, cleanStep_plain _ _ _ hu]

/-- A non-empty directory `w` is an initial part of the cleaned `w/s`, for an
element `s` without slash or dot, exactly when `w` is a cleaned path other than
`.`, or such a path other than `/` followed by one slash. -/
theorem cleanChars_snoc_isPrefix_iff (w s : List Char) (hw : w ≠ []) (hs1 : s ≠ [])
    (hs2 : '/' ∉ s) (hs3 : '.' ∉ s) :
    w <+: cleanChars (w ++ '/' :: s) ↔
      cleanChars w ≠ ['.'] ∧
        (w = cleanChars w ∨ (cleanChars w ≠ ['/'] ∧ w = cleanChars w ++ ['/'])) := by
  have hplain : plainElement s := plainElement_of_initial s s hs1 (List.prefix_refl s) hs2 hs3
  rw [cleanChars_snoc w s hw hplain]
  by_cases hst : cleanStack w = []
  · rw [if_pos hst]
    have hC := cleanChars_of_empty_stack w hw hst
    by_cases hr : (w.head? == some '/') = true
    · rw [if_pos hr] at hC ⊢
      rw [hC]
      constructor
      · intro hp
        refine ⟨by simp, Or.inl ?_⟩
        cases w with
        | nil => exact absurd rfl hw
        | cons c w' =>
          have hc : c = '/' := by simpa using hr
          subst hc
          have hp' : w' <+: s := by simpa using hp
          by_cases hw' : w' = []
          · rw [hw']
          · have := cleanStack_rooted_plain w' (plainElement_of_initial w' s hw' hp' hs2 hs3)
            rw [this] at hst
            simp at hst
      · rintro ⟨_, h | ⟨h, _⟩⟩
        · rw [h]; simp
        · exact absurd rfl h
    · rw [if_neg hr] at hC ⊢
      rw [hC]
      constructor
      · intro hp
        have := cleanStack_plain w (plainElement_of_initial w s hw hp hs2 hs3)
        rw [this] at hst
        simp at hst
      · rintro ⟨h, _⟩
        exact absurd rfl h
  · rw [if_neg hst]
    obtain ⟨hC1, hC2, hC3⟩ := cleanChars_of_stack w hw hst
    constructor
    · intro hp
      refine ⟨hC1, ?_⟩
      have hlen := cleanChars_length w hw
      have hCp : cleanChars w <+: cleanChars w ++ '/' :: s := List.prefix_append _ _
      obtain ⟨u, hu⟩ := List.prefix_of_prefix_length_le hCp hp hlen
      have hp2 : cleanChars w ++ u <+: cleanChars w ++ '/' :: s := by rw [hu]; exact hp
      have hup : u <+: '/' :: s := (List.prefix_append_right_inj _).1 hp2
      cases u with
      | nil => left; simpa using hu.symm
      | cons c u' =>
        have hc : c = '/' ∧ u' <+: s := by simpa using hup
        obtain ⟨rfl, hu's⟩ := hc
        by_cases hu' : u' = []
        · subst hu'
          exact Or.inr ⟨hC2, hu.symm⟩
        · exfalso
          have hpl := plainElement_of_initial u' s hu' hu's hs2 hs3
          have hcl : cleanChars w = cleanChars (cleanChars w ++ '/' :: u') := by rw [hu]
          rw [cleanChars_snoc _ u' hC3 hpl, cleanChars_idem] at hcl
          split at hcl
          · next hcs =>
            split at hcl
            · rw [hcl, cleanStack_rooted_plain u' hpl] at hcs
              simp at hcs
            · rw [hcl, cleanStack_plain u' hpl] at hcs
              simp at hcs
          · have := congrArg List.length hcl
            simp at this
    · rintro ⟨_, h | ⟨_, h⟩⟩
      · rw [← h]; exact List.prefix_append _ _
      · have hs : cleanChars w ++ '/' :: s = (cleanChars w ++ ['/']) ++ s := by simp
        rw [hs, ← h]
        exact List.prefix_append _ _

/-- The path `path.Join(w, s)`, for an element `s` without slash or dot, starts
with the string `w` exactly when `w` is empty, or a cleaned path other than
`.`, or a cleaned path other than `.` and `/` followed by one slash. -/
theorem Join_isPrefix_iff (w : String) (s : List Char) (hs1 : s ≠ []) (hs2 : '/' ∉ s)
    (hs3 : '.' ∉ s) :
    w.data <+: (Join [w, ⟨s⟩]).data ↔
      w = "" ∨ (Clean w ≠ "." ∧ (w = Clean w ∨ (Clean w ≠ "/" ∧ w = Clean w ++ "/"))) := by
  by_cases hw : w.data = []
  · have : w = "" := String.ext hw
    subst this
    simp
  · have hJ : (Join [w, ⟨s⟩]).data = cleanChars (w.data ++ '/' :: s) := by
      simp [Join, List.dropWhile, hw, joinWith]
    have hne : w ≠ "" := fun h => hw (by rw [h])
    have h1 : Clean w ≠ "." ↔ cleanChars w.data ≠ ['.'] := by
      rw [ne_eq, String.ext_iff]; rfl
    have h2 : w = Clean w ↔ w.data = cleanChars w.data := by
      rw [String.ext_iff]; rfl
    have h3 : Clean w ≠ "/" ↔ cleanChars w.data ≠ ['/'] := by
      rw [ne_eq, String.ext_iff]; rfl
    have h4 : w = Clean w ++ "/" ↔ w.data = cleanChars w.data ++ ['/'] := by
      rw [String.ext_iff, String.data_append]; rfl
    rw [hJ, cleanChars_snoc_isPrefix_iff w.data s hw hs1 hs2 hs3, h1, h2, h3, h4]
    simp [hne]

/-! ### `loadModel` and the loop of `Init` -/

theorem Sub_defaults (v : Viper) (key : String) (mv : Viper) (h : v.Sub key = some mv) :
    mv = { config := mv.config, defaults := [] } := by
  unfold Viper.Sub at h
  split at h
  · injection h with h; subst h; rfl
  · simp at h

theorem loadModel_ok (json : String → List (String × Value)) (v : Viper) (now : Int)
    (key : String) (h : modelResolves json v key = true) :
    ∃ m, (loadModel json v now key).2 = .ok m ∧ m.Name = key ∧ m.TempPath = tempPathOf v now ∧
      m.DumpPath = Join [m.TempPath, m.Name] := by
  unfold modelResolves at h
  unfold loadModel
  cases hs : v.Sub ("models." ++ key) with
  | none => simp [hs] at h
  | some mv =>
    have hmv := Sub_defaults v _ mv hs
    simp only [hs, Bool.and_eq_true] at h
    simp only
    rw [loadDatabasesConfig_eq json _ mv.config (by rw [← hmv]), if_pos h.1]
    simp only
    rw [loadStoragesConfig_eq json _ mv.config (by rw [← hmv]), if_pos h.2]
    exact ⟨_, rfl, rfl, rfl, rfl⟩

theorem loadModel_panic (json : String → List (String × Value)) (v : Viper) (now : Int)
    (key : String) (h : modelResolves json v key = false) :
    (loadModel json v now key).2 = .error .nilPointerDereference := by
  unfold modelResolves at h
  unfold loadModel
  cases hs : v.Sub ("models." ++ key) with
  | none => rfl
  | some mv =>
    have hmv := Sub_defaults v _ mv hs
    simp only [hs] at h
    simp only
    rw [loadDatabasesConfig_eq json _ mv.config (by rw [← hmv])]
    by_cases hd : groupResolves json mv.config "databases" = true
    · rw [if_pos hd]
      simp only
      rw [loadStoragesConfig_eq json _ mv.config (by rw [← hmv])]
      have hst : ¬ groupResolves json mv.config "storages" = true := by
        intro hst; simp [hd, hst] at h
      rw [if_neg hst]
    · rw [if_neg hd]

/-- A model key whose sub-tree is nil ends `loadModel` in the nil-pointer panic
of line 90, whatever the clock reads. -/
theorem loadModel_nil_subtree (json : String → List (String × Value)) (v : Viper) (now : Int)
    (key : String) (h : v.Sub ("models." ++ key) = none) :
    loadModel json v now key = ([], .error .nilPointerDereference) := by
  simp [loadModel, h]

/-- The loop of `Init`: the models appended are those of the first `n` keys,
in order, the `i`-th with the temporary path of the `i`-th clock reading; all
keys are done exactly when no model fails to resolve. -/
theorem initLoop_spec (json : String → List (String × Value)) (v : Viper) (now : Nat → Int)
    (keys : List String) (tick : Nat)
    (acc : List ModelConfig) (log : List LogEntry) :
    ∃ n ms, n ≤ keys.length ∧
      (initLoop json v now keys tick acc log).2.1 = acc ++ ms ∧
      ms.map (fun m => m.Name) = keys.take n ∧
      ms.map (fun m => m.TempPath)
        = (List.range n).map (fun i => tempPathOf v (now (tick + i))) ∧
      (∀ m ∈ ms, m.DumpPath = Join [m.TempPath, m.Name]) ∧
      ((initLoop json v now keys tick acc log).1 = none → n = keys.length) ∧
      ((initLoop json v now keys tick acc log).1 = none ↔
        ∀ k ∈ keys, modelResolves json v k = true) := by
  induction keys generalizing tick acc log with
  | nil => exact ⟨0, [], by simp [initLoop]⟩
  | cons key rest ih =>
    cases hres : modelResolves json v key with
    | false =>
      have hp := loadModel_panic json v (now tick) key hres
      have hl : loadModel json v (now tick) key
          = ((loadModel json v (now tick) key).1, .error .nilPointerDereference) := by
        rw [← hp]
      refine ⟨0, [], by simp, ?_, by simp, by simp, by simp, ?_, ?_⟩
      · simp only [initLoop]; rw [hl]; simp
      · simp only [initLoop]; rw [hl]; simp
      · simp only [initLoop]; rw [hl]; simp [hres]
    | true =>
      obtain ⟨m, hm, hname, htemp, hdump⟩ := loadModel_ok json v (now tick) key hres
      have hl : loadModel json v (now tick) key = ((loadModel json v (now tick) key).1, .ok m) := by
        rw [← hm]
      obtain ⟨n, ms, hn, hmodels, hnames, htemps, hdumps, hlen, hiff⟩ :=
        ih (tick + 1) (acc ++ [m]) (log ++ (loadModel json v (now tick) key).1)
      have hstep : initLoop json v now (key :: rest) tick acc log
          = initLoop json v now rest (tick + 1) (acc ++ [m])
              (log ++ (loadModel json v (now tick) key).1) := by
        simp only [initLoop]; rw [hl]
      refine ⟨n + 1, m :: ms, by simpa using hn, ?_, ?_, ?_, ?_, ?_, ?_⟩
      · rw [hstep, hmodels]; simp
      · simp [hname, hnames]
      · rw [List.range_succ_eq_map]
        simp only [List.map_cons, List.map_map, htemps, htemp, Nat.add_zero, List.cons.injEq,
          true_and]
        apply List.map_congr_left
        intro i _
        simp only [Function.comp_apply]
        congr 2
        omega
      · intro x hx
        rcases List.mem_cons.1 hx with rfl | hx
        · exact hdump
        · exact hdumps x hx
      · rw [hstep]; intro h; simp [hlen h]
      · rw [hstep, hiff]; simp [hres]

/-- The state and outcome of `Init` once the document is read. -/
theorem Init_loaded (env : Env) (configFile fileUsed : String) (s : State)
    (doc : List (String × Value))
    (hload : env.readInConfig (locatorOf configFile) = .ok (fileUsed, doc)) :
    ∃ n, n ≤ (mapKeys (stringMapOf env.jsonObject doc "models")).length ∧
      (Init env configFile s).state.Exist = true ∧
      (Init env configFile s).state.Models.map (fun m => m.Name)
        = (mapKeys (stringMapOf env.jsonObject doc "models")).take n ∧
      (Init env configFile s).state.Models.map (fun m => m.TempPath)
        = (List.range n).map (fun i => tempPathOf (viperOf env doc) (env.now i)) ∧
      (∀ m ∈ (Init env configFile s).state.Models, m.DumpPath = Join [m.TempPath, m.Name]) ∧
      ((∀ p, (Init env configFile s).outcome ≠ .panic p) → n = (mapKeys (stringMapOf env.jsonObject doc "models")).length) ∧
      ((∀ p, (Init env configFile s).outcome ≠ .panic p) ↔
        ∀ k ∈ mapKeys (stringMapOf env.jsonObject doc "models"), modelResolves env.jsonObject (viperOf env doc) k = true) := by
  obtain ⟨n, ms, hn, hmodels, hnames, htemps, hdumps, hlen, hiff⟩ :=
    initLoop_spec env.jsonObject (viperOf env doc) env.now (mapKeys (stringMapOf env.jsonObject doc "models")) 0 [] []
  have hout : (∀ p, (Init env configFile s).outcome ≠ .panic p) ↔
      (initLoop env.jsonObject (viperOf env doc) env.now (mapKeys (stringMapOf env.jsonObject doc "models")) 0 [] []).1 = none := by
    simp only [Init, hload, viperOf_models]
    rcases hx : initLoop env.jsonObject (viperOf env doc) env.now (mapKeys (stringMapOf env.jsonObject doc "models")) 0 [] []
      with ⟨p, models, lg⟩
    cases p with
    | none =>
      simp only
      split <;> simp
    | some p => simp
  have hstate : (Init env configFile s).state.Exist = true ∧
      (Init env configFile s).state.Models
        = (initLoop env.jsonObject (viperOf env doc) env.now (mapKeys (stringMapOf env.jsonObject doc "models")) 0 [] []).2.1 := by
    simp only [Init, hload, viperOf_models]
    rcases hx : initLoop env.jsonObject (viperOf env doc) env.now (mapKeys (stringMapOf env.jsonObject doc "models")) 0 [] []
      with ⟨p, models, lg⟩
    cases p with
    | none =>
      simp only
      split <;> simp
    | some p => simp
  simp only [List.nil_append] at hmodels
  refine ⟨n, hn, hstate.1, ?_, ?_, ?_, ?_, ?_⟩
  · rw [hstate.2, hmodels, hnames]
  · rw [hstate.2, hmodels, htemps]; simp
  · rw [hstate.2, hmodels]; exact hdumps
  · intro h; exact hlen (hout.1 h)
  · rw [hout, hiff]

/-- When the document is loaded, `Init` runs through (it does not panic)
exactly when every model of the `models` enumeration can be resolved; then
`Models` has as many entries as there are keys, the names of the entries are
the keys in the order visited, and every key is the `Name` of exactly one
entry. -/
theorem Init_models_names (env : Env) (configFile fileUsed : String) (s : State)
    (doc : List (String × Value))
    (hload : env.readInConfig (locatorOf configFile) = .ok (fileUsed, doc)) :
    ((∀ p, (Init env configFile s).outcome ≠ .panic p) ↔
      ∀ k ∈ mapKeys (stringMapOf env.jsonObject doc "models"),
        modelResolves env.jsonObject (viperOf env doc) k = true) ∧
    ((∀ p, (Init env configFile s).outcome ≠ .panic p) →
      (Init env configFile s).state.Models.length
        = (mapKeys (stringMapOf env.jsonObject doc "models")).length ∧
      (Init env configFile s).state.Models.map (fun m => m.Name)
        = mapKeys (stringMapOf env.jsonObject doc "models") ∧
      ((Init env configFile s).state.Models.map (fun m => m.Name)).Nodup ∧
      ∀ k ∈ mapKeys (stringMapOf env.jsonObject doc "models"),
        ((Init env configFile s).state.Models.map (fun m => m.Name)).count k = 1) := by
  obtain ⟨n, _, _, hnames, _, _, hlen, hiff⟩ := Init_loaded env configFile fileUsed s doc hload
  refine ⟨hiff, fun h => ?_⟩
  have hn := hlen h
  rw [hn, List.take_length] at hnames
  have hnd : ((Init env configFile s).state.Models.map (fun m => m.Name)).Nodup := by
    rw [hnames]; exact mapKeys_nodup _
  refine ⟨?_, hnames, hnd, ?_⟩
  · have := congrArg List.length hnames
    simpa using this
  · intro k hk
    exact List.count_eq_one_of_mem hnd (by rw [hnames]; exact hk)

/-- C1: at the document `models: {a: {}, b: 5}` the `models` group has the two
keys `a` and `b`; `Init` resolves `a`, panics on the nil sub-tree of `b`, and
leaves `Models` with the one entry `a`. -/
theorem Init_second_scalar_model_short :
    mapKeys (stringMapOf jsonSample docSecondScalar "models") = ["a", "b"] ∧
    (Init (envOf docSecondScalar (fun i => i)) "" State.initial).outcome
      = .panic .nilPointerDereference ∧
    (Init (envOf docSecondScalar (fun i => i)) "" State.initial).state.Models.map
      (fun m => m.Name) = ["a"] ∧
    (Init (envOf docSecondScalar (fun i => i)) "" State.initial).state.Models.length = 1 := by
  refine ⟨by decide, rfl, rfl, rfl⟩

theorem formatInt_plainElement (n : Int) : plainElement (formatInt n) := by
  obtain ⟨h1, h2, h3⟩ := formatInt_plain n
  refine ⟨h1, h2, ?_, ?_⟩
  · intro h; apply h3; rw [h]; simp
  · intro h; apply h3; rw [h]; simp [dotdot]

theorem tempPathOf_injective (v : Viper) (a b : Int) (h : tempPathOf v a = tempPathOf v b) :
    a = b :=
  formatInt_injective a b
    (Join_plain_injective _ _ _ (formatInt_plainElement a) (formatInt_plainElement b) h)

/-- The `i`-th model `Init` resolves: its temporary path is computed from the
`i`-th clock reading, and its dump path from the temporary path and the
name. -/
theorem Init_model_at (env : Env) (configFile fileUsed : String) (s : State)
    (doc : List (String × Value))
    (hload : env.readInConfig (locatorOf configFile) = .ok (fileUsed, doc))
    (i : Nat) (m : ModelConfig) (hm : (Init env configFile s).state.Models[i]? = some m) :
    m.TempPath = tempPathOf (viperOf env doc) (env.now i) ∧
    m.DumpPath = Join [m.TempPath, m.Name] := by
  obtain ⟨n, _, _, _, htemps, hdumps, _, _⟩ := Init_loaded env configFile fileUsed s doc hload
  refine ⟨?_, hdumps m (List.getElem?_mem hm)⟩
  have h1 : ((Init env configFile s).state.Models.map (fun m => m.TempPath))[i]?
      = some m.TempPath := by
    rw [List.getElem?_map, hm]; rfl
  rw [htemps, List.getElem?_map] at h1
  cases hr : (List.range n)[i]? with
  | none => rw [hr] at h1; simp at h1
  | some j =>
    rw [hr] at h1
    have hj : j = i := by
      have hlt : i < (List.range n).length := by
        by_contra hge
        rw [List.getElem?_eq_none (by omega)] at hr
        simp at hr
      rw [List.getElem?_eq_getElem hlt, List.getElem_range] at hr
      simpa using hr.symm
    subst hj
    simpa using h1.symm

/-- C3, as the claim states it, fails: with the document `models: {a: {}, b:
{}}` and a clock that reads 7 at both calls, the two models resolved by one
call of `Init` have the same `TempPath`. -/
theorem Init_TempPath_collision :
    ∃ m1 m2, (Init (envOf docTwoModels (fun _ => 7)) "" State.initial).state.Models = [m1, m2] ∧
      m1.Name = "a" ∧ m2.Name = "b" ∧
      m1.TempPath = "/tmp/gobackup/7" ∧ m2.TempPath = "/tmp/gobackup/7" :=
  ⟨_, _, rfl, rfl, rfl, rfl, rfl⟩

/-- C3, amended: the `i`-th and the `j`-th model resolved in one call of `Init`
have the same `TempPath` exactly when the `i`-th and the `j`-th clock reading
of that call are equal; so two models have distinct `TempPath` values exactly
when the readings taken for them differ. -/
theorem Init_TempPath_distinct (env : Env) (configFile fileUsed : String) (s : State)
    (doc : List (String × Value))
    (hload : env.readInConfig (locatorOf configFile) = .ok (fileUsed, doc))
    (i j : Nat) (mi mj : ModelConfig)
    (hi : (Init env configFile s).state.Models[i]? = some mi)
    (hj : (Init env configFile s).state.Models[j]? = some mj) :
    (mi.TempPath = mj.TempPath ↔ env.now i = env.now j) ∧
    (mi.TempPath ≠ mj.TempPath ↔ env.now i ≠ env.now j) := by
  have h1 := (Init_model_at env configFile fileUsed s doc hload i mi hi).1
  have h2 := (Init_model_at env configFile fileUsed s doc hload j mj hj).1
  have hiff : mi.TempPath = mj.TempPath ↔ env.now i = env.now j := by
    rw [h1, h2]
    exact ⟨tempPathOf_injective _ _ _, fun h => by rw [h]⟩
  exact ⟨hiff, not_congr hiff⟩

/-- C3 amended, at the document `models: {a: {}, b: {}, c: {}}` with the clock
reading 7, 7, 8: the first and the third model differ, the first and the second
do not. -/
theorem Init_TempPath_distinct_witness :
    (Init (envOf docThreeModels clock778) "" State.initial).state.Models.map
        (fun m => m.TempPath) = ["/tmp/gobackup/7", "/tmp/gobackup/7", "/tmp/gobackup/8"] ∧
    (∀ (mi mj : ModelConfig), (Init (envOf docThreeModels clock778) "" State.initial).state.Models[0]? = some mi →
      (Init (envOf docThreeModels clock778) "" State.initial).state.Models[2]? = some mj →
      mi.TempPath ≠ mj.TempPath) ∧
    (∀ (mi mj : ModelConfig), (Init (envOf docThreeModels clock778) "" State.initial).state.Models[0]? = some mi →
      (Init (envOf docThreeModels clock778) "" State.initial).state.Models[1]? = some mj →
      mi.TempPath = mj.TempPath) :=
  ⟨rfl,
    fun mi mj h0 h2 =>
      (Init_TempPath_distinct (envOf docThreeModels clock778) "" "gobackup.yml" State.initial
        docThreeModels rfl 0 2 mi mj h0 h2).2.2 (by decide),
    fun mi mj h0 h1 =>
      (Init_TempPath_distinct (envOf docThreeModels clock778) "" "gobackup.yml" State.initial
        docThreeModels rfl 0 1 mi mj h0 h1).1.2 (by decide)⟩

theorem viperOf_workdir_value (env : Env) (doc : List (String × Value)) (val : Value)
    (h : doc.lookup "workdir" = some val) (hn : val ≠ .null) :
    (viperOf env doc).GetString "workdir" = castToString val := by
  simp only [Viper.GetString]
  rw [Get_single _ "workdir" (by rfl)]
  cases val <;> simp_all [viperOf, Viper.SetDefault]

theorem viperOf_workdir_default (env : Env) (doc : List (String × Value))
    (h : doc.lookup "workdir" = none ∨ doc.lookup "workdir" = some .null) :
    (viperOf env doc).GetString "workdir" = Join [env.tempDir, "gobackup"] := by
  simp only [Viper.GetString]
  rw [Get_single _ "workdir" (by rfl)]
  rcases h with h | h <;>
    simp [viperOf, Viper.SetDefault, h, castToString, mapSet, List.lookup]

theorem default_workdir_clean (tempDir : String) :
    Clean (Join [tempDir, "gobackup"]) = Join [tempDir, "gobackup"] ∧
    Join [tempDir, "gobackup"] ≠ "." := by
  have hplain : plainElement "gobackup".data := by decide
  have hdata := Join_plain tempDir "gobackup".data hplain
  have hJ : Join [tempDir, ⟨"gobackup".data⟩] = Join [tempDir, "gobackup"] := rfl
  rw [hJ] at hdata
  have hne : (Join [tempDir, "gobackup"]).data ≠ [] ∧ (Join [tempDir, "gobackup"]).data ≠ ['.'] := by
    rw [hdata]
    split
    · decide
    · split
      · split <;> decide
      · constructor
        · simp
        · intro h
          have := congrArg List.length h
          simp at this
  constructor
  · rcases Join_clean [tempDir, "gobackup"] with h | h
    · exact absurd (congrArg String.data h) hne.1
    · exact h
  · intro h
    exact hne.2 (congrArg String.data h)

/-- C6, as the claim states it, fails: with `workdir: ./backups` the temporary
paths are `backups/0` and `backups/1`, which do not start with `./backups`. -/
theorem Init_TempPath_not_under_workdir :
    (viperOf (envOf docRelativeWorkdir (fun i => i)) docRelativeWorkdir).GetString "workdir"
      = "./backups" ∧
    (Init (envOf docRelativeWorkdir (fun i => i)) "" State.initial).state.Models.map
      (fun m => m.TempPath) = ["backups/0", "backups/1"] ∧
    ¬ ("./backups".data <+: "backups/0".data) := by
  refine ⟨rfl, rfl, by decide⟩

/-- C6, amended: for the `i`-th model `Init` resolves, `DumpPath` is
`path.Join(TempPath, Name)` and `TempPath` is `path.Join` of the configured
`workdir` and the decimal text of the `i`-th clock reading. `TempPath` starts
with the `workdir` string exactly when that string is empty, or is a cleaned
path other than `.`, or is a cleaned path other than `.` and `/` followed by
one slash. The configured `workdir` is the document's value as a string, and
when the document gives none it is the default
`path.Join(os.TempDir(), "gobackup")`, which is a cleaned path other than
`.`. -/
theorem Init_paths (env : Env) (configFile fileUsed : String) (s : State)
    (doc : List (String × Value))
    (hload : env.readInConfig (locatorOf configFile) = .ok (fileUsed, doc)) :
    (∀ (i : Nat) (m : ModelConfig), (Init env configFile s).state.Models[i]? = some m →
      m.DumpPath = Join [m.TempPath, m.Name] ∧
      m.TempPath = Join [(viperOf env doc).GetString "workdir", ⟨formatInt (env.now i)⟩] ∧
      (((viperOf env doc).GetString "workdir").data <+: m.TempPath.data ↔
        (viperOf env doc).GetString "workdir" = "" ∨
          (Clean ((viperOf env doc).GetString "workdir") ≠ "." ∧
            ((viperOf env doc).GetString "workdir" = Clean ((viperOf env doc).GetString "workdir") ∨
              (Clean ((viperOf env doc).GetString "workdir") ≠ "/" ∧
                (viperOf env doc).GetString "workdir"
                  = Clean ((viperOf env doc).GetString "workdir") ++ "/"))))) ∧
    (∀ val, doc.lookup "workdir" = some val → val ≠ .null →
      (viperOf env doc).GetString "workdir" = castToString val) ∧
    ((doc.lookup "workdir" = none ∨ doc.lookup "workdir" = some .null) →
      (viperOf env doc).GetString "workdir" = Join [env.tempDir, "gobackup"] ∧
      (viperOf env doc).GetString "workdir" = Clean ((viperOf env doc).GetString "workdir") ∧
      Clean ((viperOf env doc).GetString "workdir") ≠ ".") := by
  refine ⟨fun i m hm => ?_, fun val hv hn => viperOf_workdir_value env doc val hv hn,
    fun hnone => ?_⟩
  · obtain ⟨htemp, hdump⟩ := Init_model_at env configFile fileUsed s doc hload i m hm
    refine ⟨hdump, htemp, ?_⟩
    rw [htemp]
    obtain ⟨h1, h2, h3⟩ := formatInt_plain (env.now i)
    exact Join_isPrefix_iff _ _ h1 h2 h3
  · rw [viperOf_workdir_default env doc hnone]
    obtain ⟨hc, hd⟩ := default_workdir_clean env.tempDir
    exact ⟨rfl, hc.symm, by rw [hc]; exact hd⟩

/-- C6 amended, at the document `models: {a: {}, b: {}}`, which gives no
`workdir`: the default `/tmp/gobackup` is used and starts every `TempPath`. -/
theorem Init_paths_witness :
    (Init (envOf docTwoModels (fun i => i)) "" State.initial).state.Models.map
      (fun m => (m.TempPath, m.DumpPath))
      = [("/tmp/gobackup/0", "/tmp/gobackup/0/a"), ("/tmp/gobackup/1", "/tmp/gobackup/1/b")] ∧
    ∀ (i : Nat) (m : ModelConfig),
      (Init (envOf docTwoModels (fun i => i)) "" State.initial).state.Models[i]? = some m →
      m.DumpPath = Join [m.TempPath, m.Name] ∧ "/tmp/gobackup".data <+: m.TempPath.data :=
  ⟨rfl, fun i m hm =>
    have h := (Init_paths (envOf docTwoModels (fun i => i)) "" "gobackup.yml" State.initial
      docTwoModels rfl)
    ⟨(h.1 i m hm).1,
      (h.1 i m hm).2.2.2 (Or.inr ⟨(h.2.2 (Or.inl rfl)).2.2, Or.inl (h.2.2 (Or.inl rfl)).2.1⟩)⟩⟩

/-- With `workdir: /data/` the joined path `/data/0` starts with the `workdir`
string, which is the cleaned path `/data` followed by one slash. -/
theorem Join_trailing_slash :
    Clean "/data/" = "/data" ∧ Join ["/data/", "0"] = "/data/0" ∧
    "/data/".data <+: (Join ["/data/", "0"]).data := by
  decide

end Config
